import Mathlib

/-!
# jank runtime context: namespaces, vars, keywords and symbol resolution

A shallow embedding of `src/src/cpp/jank/runtime/context.cpp`.

Boxes (`ns_ptr`, `var_ptr`, `keyword_ptr`) are addresses into a heap, so that
"the same instance" is equality of addresses.  The three tables of a `context`
are association lists standing for the `unordered_map`s of the source.  Every
operation takes the calling thread's id explicitly, and returns its result
together with the world it leaves behind, also when it ends in a fault.

List objects live in a store of their own (`machine`), the callee of a macro is a
parameter (`apply_fn`), the counter of `unique_string` is a value passed along, and
a clone is a second context over the heap it shares with the original.
-/

namespace jank.runtime

/-! ## Data model -/

/-- Symbol: `obj::symbol`, a (namespace, name) pair of text; equal iff both fields are equal. -/
structure symbol where
  ns : String
  name : String
deriving DecidableEq, Repr, Inhabited

/-- Modelled from the spec: the one-string constructor of `obj::symbol` (symbol.cpp is not
under src/). A symbol has an optional namespace component and a name component; the
constructor's uses at context.cpp:23-31 ("clojure.core", "clojure.core/*ns*",
"clojure.core/in-ns", the latter handed to `intern_var(..).expect_ok()`) fix its reading:
when the text holds a '/' and is longer than one character, what stands before the first
'/' is the namespace and what follows it the name; otherwise the whole text is the name. -/
def symbol_of_string (d : String) : symbol :=
  let cs := d.data
  if cs.contains '/' && decide (1 < cs.length) then
    ⟨String.mk (cs.takeWhile (fun c => c != '/')),
     String.mk ((cs.dropWhile (fun c => c != '/')).drop 1)⟩
  else
    ⟨"", d⟩

abbrev ns_ptr := Nat
abbrev var_ptr := Nat
abbrev keyword_ptr := Nat
abbrev thread_id := Nat
abbrev list_ptr := Nat

/-- The native functions that `context::context()` wraps and installs as var roots. -/
inductive native_function where
  | in_ns
  | assert
  | seq
  | fresh_seq
deriving DecidableEq, Repr

/-- Modelled from the spec: the runtime objects an `object_ptr` can refer to (object.hpp is
not under src/), as far as this file needs them; boxes with identity are held by address. -/
inductive object where
  | nil
  | boolean (b : Bool)
  | integer (i : Int)
  | symbol (s : symbol)
  | keyword (k : keyword_ptr)
  | ns (p : ns_ptr)
  | var (p : var_ptr)
  | native_function_wrapper (f : native_function)
  | list (p : list_ptr)
  | function (id : Nat)
deriving DecidableEq, Repr

/-- Modelled from the spec: Var (var.hpp is not under src/): owning namespace (back-reference),
qualified symbol naming it, a nullable root value slot, optional metadata. -/
structure var where
  n : ns_ptr
  name : symbol
  root : Option object
  meta : Option (List (object × object))
deriving DecidableEq, Repr

/-- Modelled from the spec: Namespace (ns.hpp is not under src/): a name symbol and the
mapping from qualified symbol to Var that it owns. -/
structure ns where
  name : symbol
  vars : List (symbol × var_ptr)
deriving DecidableEq, Repr

/-- Modelled from the spec: Keyword (keyword.hpp is not under src/): a symbol plus the
`resolved` flag. -/
structure keyword where
  sym : symbol
  resolved : Bool
deriving DecidableEq, Repr

/-- Modelled from the spec: ThreadState (context.hpp is not under src/): the var holding the
thread's current namespace and the var bound to `in-ns`; both are null in a default state
(`thread_state{ *this }`, context.cpp:380-382, sets neither). -/
structure thread_state where
  current_ns : Option var_ptr
  in_ns : Option var_ptr
deriving DecidableEq, Repr

/-- The boxes allocated so far; a pointer is an index into the list of its kind. -/
structure heap where
  nss : List ns
  vars : List var
  keywords : List keyword
deriving DecidableEq, Repr

/-- The members of `context`: the namespace, keyword and thread-state tables. -/
structure context where
  namespaces : List (symbol × ns_ptr)
  keywords : List (symbol × keyword_ptr)
  thread_states : List (thread_id × thread_state)
deriving DecidableEq, Repr

/-- A context together with the heap its pointers refer to. -/
structure world where
  heap : heap
  ctx : context
deriving DecidableEq, Repr

/-- The ways an operation can end other than by returning. `no_box` (a pointer that refers
to no box) cannot happen in the source, whose boxes are never freed; the embedding reports
it instead of inventing a value. -/
inductive fault where
  | runtime_error (what : String)
  | null_deref
  | bad_cast
  | expect_ok (what : String)
  | no_box
deriving DecidableEq, Repr

/-! ## Tables -/

/-- Lookup of a key, `unordered_map::find`. -/
def map_find {κ ν : Type} [DecidableEq κ] : List (κ × ν) → κ → Option ν
  | [], _ => none
  | (k', v) :: m, k => if k' = k then some v else map_find m k

/-- Insertion that keeps an existing entry, `unordered_map::emplace` / `insert`: the table
afterwards and the value now held under the key. -/
def map_emplace {κ ν : Type} [DecidableEq κ] (m : List (κ × ν)) (k : κ) (v : ν) :
    List (κ × ν) × ν :=
  match map_find m k with
  | some v' => (m, v')
  | none => ((k, v) :: m, v)

/-- Replace the entry of a key that is present (writing through a reference into the table). -/
def map_assign {κ ν : Type} [DecidableEq κ] : List (κ × ν) → κ → ν → List (κ × ν)
  | [], _, _ => []
  | (k', v') :: m, k, v => if k' = k then (k', v) :: m else (k', v') :: map_assign m k v

/-- Number of entries a table holds under a key. -/
def map_count {κ ν : Type} [DecidableEq κ] (m : List (κ × ν)) (k : κ) : Nat :=
  (m.filter (fun e => decide (e.1 = k))).length

/-! ## Heap access -/

/-- Write the root of the var at `p` (`var::set_root`). -/
def heap.set_root (h : heap) (p : var_ptr) (o : Option object) : Option heap :=
  match h.vars[p]? with
  | none => none
  | some v => some { h with vars := h.vars.set p { v with root := o } }

/-- Replace the var table of the namespace at `p`. -/
def heap.set_vars (h : heap) (p : ns_ptr) (vs : List (symbol × var_ptr)) : Option heap :=
  match h.nss[p]? with
  | none => none
  | some n => some { h with nss := h.nss.set p { n with vars := vs } }

/-- The idiom `expect_object<ns>(t_state.current_ns->get_root())` (context.cpp:96, 128, 255):
follow the thread state's current-namespace var to its root and require a namespace. -/
def current_ns_of (h : heap) (t_state : thread_state) : Except fault (ns_ptr × ns) :=
  match t_state.current_ns with
  | none => .error .null_deref
  | some vp =>
    match h.vars[vp]? with
    | none => .error .no_box
    | some v =>
      match v.root with
      | none => .error .null_deref
      | some (.ns p) =>
        match h.nss[p]? with
        | none => .error .no_box
        | some n => .ok (p, n)
      | some _ => .error .bad_cast

/-! ## Operations of `context` -/

/-- Thread state: `context::get_thread_state(option<thread_state> init)`, context.cpp:386-416. -/
def get_thread_state (c : context) (this_id : thread_id) (init : Option thread_state) :
    thread_state × context :=
  match map_find c.thread_states this_id with
  | some found => (found, c)
  | none =>
    match map_find c.thread_states this_id with
    | some found => (found, c)
    | none =>
      let fresh : thread_state := match init with
        | some i => i
        | none => ⟨none, none⟩
      let r := map_emplace c.thread_states this_id fresh
      (r.2, { c with thread_states := r.1 })

/-- Symbol qualification: `context::qualify_symbol`, context.cpp:90-100. -/
def qualify_symbol (w : world) (tid : thread_id) (sym : symbol) : Except fault symbol × world :=
  if sym.ns = "" then
    let r := get_thread_state w.ctx tid none
    let w1 : world := { w with ctx := r.2 }
    match current_ns_of w1.heap r.1 with
    | .error e => (.error e, w1)
    | .ok (_, current_ns) => (.ok ⟨current_ns.name.name, sym.name⟩, w1)
  else
    (.ok sym, w)

/-- Var lookup: `context::find_var`, context.cpp:102-137. -/
def find_var (w : world) (tid : thread_id) (sym : symbol) : Except fault (Option var_ptr) × world :=
  if sym.ns ≠ "" then
    match map_find w.ctx.namespaces ⟨"", sym.ns⟩ with
    | none => (.ok none, w)
    | some np =>
      match w.heap.nss[np]? with
      | none => (.error .no_box, w)
      | some n => (.ok (map_find n.vars sym), w)
  else
    let r := get_thread_state w.ctx tid none
    let w1 : world := { w with ctx := r.2 }
    match current_ns_of w1.heap r.1 with
    | .error e => (.error e, w1)
    | .ok (_, current_ns) =>
      (.ok (map_find current_ns.vars ⟨current_ns.name.name, sym.name⟩), w1)

/-- Namespace interning: `context::intern_ns`, context.cpp:205-214. -/
def intern_ns (w : world) (sym : symbol) : ns_ptr × world :=
  match map_find w.ctx.namespaces sym with
  | some found => (found, w)
  | none =>
    let box := w.heap.nss.length
    let h1 : heap := { w.heap with nss := w.heap.nss ++ [⟨sym, []⟩] }
    let r := map_emplace w.ctx.namespaces sym box
    (r.2, { heap := h1, ctx := { w.ctx with namespaces := r.1 } })

/-- Var interning: `context::intern_var(obj::symbol_ptr const &)`, context.cpp:219-238. The
inner `Except` is the `result<var_ptr, native_string>` the source returns. -/
def intern_var (w : world) (qualified_sym : symbol) :
    Except fault (Except String var_ptr) × world :=
  if qualified_sym.ns = "" then
    (.ok (.error "can't intern var; sym isn't qualified"), w)
  else
    match map_find w.ctx.namespaces (symbol_of_string qualified_sym.ns) with
    | none => (.ok (.error "can't intern var; namespace doesn't exist"), w)
    | some found_ns =>
      match w.heap.nss[found_ns]? with
      | none => (.error .no_box, w)
      | some n =>
        match map_find n.vars qualified_sym with
        | some found_var => (.ok (.ok found_var), w)
        | none =>
          let box := w.heap.vars.length
          let h1 : heap := { w.heap with vars := w.heap.vars ++ [⟨found_ns, qualified_sym, none, none⟩] }
          let r := map_emplace n.vars qualified_sym box
          match h1.set_vars found_ns r.1 with
          | none => (.error .no_box, w)
          | some h2 => (.ok (.ok r.2), { w with heap := h2 })

/-- Var interning from two strings: `context::intern_var(ns, name)`, context.cpp:216-218. -/
def intern_var_of (w : world) (ns name : String) : Except fault (Except String var_ptr) × world :=
  intern_var w ⟨ns, name⟩

/-- Keyword interning: `context::intern_keyword(ns, name, resolved)`, context.cpp:243-268.
First the symbol and flag as the `if(!resolved)` block leaves them, then the table. -/
def intern_keyword (w : world) (tid : thread_id) (ns name : String) (resolved : Bool) :
    Except fault keyword_ptr × world :=
  let pre : Except fault (symbol × Bool) × world :=
    if resolved = false then
      if ns ≠ "" then
        (.error (.runtime_error "unimplemented: auto-resolved ns aliases"), w)
      else
        let r := get_thread_state w.ctx tid none
        let w1 : world := { w with ctx := r.2 }
        match current_ns_of w1.heap r.1 with
        | .error e => (.error e, w1)
        | .ok (_, current_ns) => (.ok (⟨current_ns.name.name, name⟩, true), w1)
    else
      (.ok (⟨ns, name⟩, resolved), w)
  match pre with
  | (.error e, w1) => (.error e, w1)
  | (.ok (sym, resolved), w1) =>
    match map_find w1.ctx.keywords sym with
    | some found => (.ok found, w1)
    | none =>
      let box := w1.heap.keywords.length
      let h1 : heap := { w1.heap with keywords := w1.heap.keywords ++ [⟨sym, resolved⟩] }
      let r := map_emplace w1.ctx.keywords sym box
      (.ok r.2, { heap := h1, ctx := { w1.ctx with keywords := r.1 } })

/-- Keyword interning from a symbol: `context::intern_keyword(sym, resolved)`,
context.cpp:241-242. -/
def intern_keyword_sym (w : world) (tid : thread_id) (sym : symbol) (resolved : Bool) :
    Except fault keyword_ptr × world :=
  intern_keyword w tid sym.ns sym.name resolved

/-- The `in-ns` operation: the lambda `in_ns_fn` of `context::context()`, context.cpp:32-55. -/
def in_ns_fn (w : world) (tid : thread_id) (sym : object) : Except fault object × world :=
  match sym with
  | .symbol typed_sym =>
    let r := intern_ns w typed_sym
    let t := get_thread_state r.2.ctx tid none
    let w2 : world := { r.2 with ctx := t.2 }
    match t.1.current_ns with
    | none => (.error .null_deref, w2)
    | some vp =>
      match w2.heap.set_root vp (some (.ns r.1)) with
      | none => (.error .no_box, w2)
      | some h => (.ok .nil, { w2 with heap := h })
  | _ => (.ok .nil, w)

/-- One of the native vars of the constructor:
`intern_var(sym).expect_ok()->set_root(make_box<obj::native_function_wrapper>(f))`. -/
def install_native (w : world) (sym : symbol) (f : native_function) :
    Except fault var_ptr × world :=
  match intern_var w sym with
  | (.error e, w1) => (.error e, w1)
  | (.ok (.error msg), w1) => (.error (.expect_ok msg), w1)
  | (.ok (.ok vp), w1) =>
    match w1.heap.set_root vp (some (.native_function_wrapper f)) with
    | none => (.error .no_box, w1)
    | some h => (.ok vp, { w1 with heap := h })

/-- Construction: `context::context()`, context.cpp:20-79, on the thread `tid`, over a heap
that may already hold the boxes of other contexts. -/
def context_new (h : heap) (tid : thread_id) : Except fault Unit × world :=
  let t := get_thread_state ⟨[], [], []⟩ tid none
  let w0 : world := { heap := h, ctx := t.2 }
  let r := intern_ns w0 (symbol_of_string "clojure.core")
  let core := r.1
  let w1 := r.2
  match w1.heap.nss[core]? with
  | none => (.error .no_box, w1)
  | some core_ns =>
    let ns_sym := symbol_of_string "clojure.core/*ns*"
    let box := w1.heap.vars.length
    let h1 : heap := { w1.heap with vars := w1.heap.vars ++ [⟨core, ns_sym, some (.ns core), none⟩] }
    let ns_res := map_emplace core_ns.vars ns_sym box
    match h1.set_vars core ns_res.1 with
    | none => (.error .no_box, w1)
    | some h2 =>
      let t1 : thread_state := { t.1 with current_ns := some ns_res.2 }
      let w2 : world := { heap := h2, ctx := { w1.ctx with thread_states := map_assign w1.ctx.thread_states tid t1 } }
      match install_native w2 (symbol_of_string "clojure.core/in-ns") .in_ns with
      | (.error e, w3) => (.error e, w3)
      | (.ok in_ns_var, w3) =>
        let t2 : thread_state := { t1 with in_ns := some in_ns_var }
        let w4 : world := { w3 with ctx := { w3.ctx with thread_states := map_assign w3.ctx.thread_states tid t2 } }
        match install_native w4 (symbol_of_string "clojure.core/assert") .assert with
        | (.error e, w5) => (.error e, w5)
        | (.ok _, w5) =>
          match install_native w5 (symbol_of_string "clojure.core/seq") .seq with
          | (.error e, w6) => (.error e, w6)
          | (.ok _, w6) =>
            match install_native w6 (symbol_of_string "clojure.core/fresh-seq") .fresh_seq with
            | (.error e, w7) => (.error e, w7)
            | (.ok _, w7) => (.ok (), w7)

/-- The world of a registry freshly constructed on thread 0 over an empty heap. -/
def fresh_world : world := (context_new ⟨[], [], []⟩ 0).2

/-! ## Macro expansion -/

/-- The world together with the list boxes (`obj::list`): a list object is an address into
`lists`, so that two lists with equal elements can be different objects. -/
structure machine where
  w : world
  lists : List (List object)
deriving DecidableEq, Repr

/-- What stands for `apply_to(source, args)`, which runs code compiled elsewhere: given the
machine, the calling thread, the callee (a var root, possibly null) and the argument list,
it ends with an object or a fault and leaves a machine. -/
abbrev apply_fn := machine → thread_id → Option object → object → Except fault object × machine

/-- Modelled from the spec: `detail::truthy` (util.hpp is not under src/): the spec speaks of
a "truthy" entry; as in the language family, nil and false are the values that are not. -/
def truthy : object → Bool
  | .nil => false
  | .boolean false => false
  | _ => true

/-- Single-step expansion: `context::macroexpand1`, context.cpp:270-305. The var box is read
once, when the var is found; the interning of the keyword that follows does not touch var
boxes, so the root handed to the callee is the one the source reads afterwards. -/
def macroexpand1 (apply_to : apply_fn) (st : machine) (tid : thread_id) (o : object) :
    Except fault object × machine :=
  match o with
  | .list lp =>
    match st.lists[lp]? with
    | none => (.error .no_box, st)
    | some [] => (.ok o, st)
    | some (first_sym_obj :: rest) =>
      match first_sym_obj with
      | .symbol s =>
        match find_var st.w tid s with
        | (.error e, w1) => (.error e, { st with w := w1 })
        | (.ok none, w1) => (.ok o, { st with w := w1 })
        | (.ok (some vp), w1) =>
          match w1.heap.vars[vp]? with
          | none => (.error .no_box, { st with w := w1 })
          | some v =>
            match v.meta with
            | none => (.ok o, { st with w := w1 })
            | some mt =>
              match intern_keyword w1 tid "" "macro" true with
              | (.error e, w2) => (.error e, { st with w := w2 })
              | (.ok kw, w2) =>
                match map_find mt (.keyword kw) with
                | none => (.ok o, { st with w := w2 })
                | some found_entry =>
                  if truthy found_entry = false then
                    (.ok o, { st with w := w2 })
                  else
                    let args := st.lists.length
                    apply_to { w := w2, lists := st.lists ++ [o :: .nil :: rest] } tid v.root
                      (.list args)
      | _ => (.ok o, st)
  | _ => (.ok o, st)

/-- Expansion to a fixed point: `context::macroexpand`, context.cpp:307-313. The source
recurses without bound; here `fuel` bounds the number of calls of `macroexpand1` (`none`
when it runs out), and the third component counts the calls made. -/
def macroexpand (apply_to : apply_fn) : Nat → machine → thread_id → object →
    Option (Except fault object × machine × Nat)
  | 0, _, _, _ => none
  | fuel + 1, st, tid, o =>
    match macroexpand1 apply_to st tid o with
    | (.error e, st1) => some (.error e, st1, 1)
    | (.ok expanded, st1) =>
      if expanded ≠ o then
        match macroexpand apply_to fuel st1 tid expanded with
        | none => none
        | some (r, st2, calls) => some (r, st2, calls + 1)
      else
        some (.ok o, st1, 1)

/-- The n-fold iterate of `macroexpand1` on a form, each step run in the machine the
previous one left; `none` when a step ends in a fault. -/
def macroexpand1_iterate (apply_to : apply_fn) : Nat → machine → thread_id → object →
    Option (object × machine)
  | 0, st, _, o => some (o, st)
  | n + 1, st, tid, o =>
    match macroexpand1 apply_to st tid o with
    | (.error _, _) => none
    | (.ok expanded, st1) => macroexpand1_iterate apply_to n st1 tid expanded

/-- A callee that returns the same object whatever it is given. -/
def apply_constant (r : object) : apply_fn := fun st _ _ _ => (.ok r, st)

/-- A fresh registry with the keyword :macro interned (keyword 0), a var clojure.core/foo
(var 5) whose metadata maps :macro to true and whose root is a compiled function, and a
var clojure.core/+ (var 6) without metadata. -/
def world_macros : world :=
  let w1 := (intern_keyword fresh_world 0 "" "macro" true).2
  let w2 := (intern_var w1 ⟨"clojure.core", "foo"⟩).2
  let w3 := (intern_var w2 ⟨"clojure.core", "+"⟩).2
  { w3 with heap := { w3.heap with
      vars := w3.heap.vars.set 5
        ⟨0, ⟨"clojure.core", "foo"⟩, some (.function 0), some [(.keyword 0, .boolean true)]⟩ } }

/-- The machine of `world_macros` with the list boxes (foo 1 2), (bar 1 2) and (+ 1 2). -/
def machine_macros : machine :=
  { w := world_macros,
    lists := [[.symbol ⟨"", "foo"⟩, .integer 1, .integer 2],
              [.symbol ⟨"", "bar"⟩, .integer 1, .integer 2],
              [.symbol ⟨"", "+"⟩, .integer 1, .integer 2]] }

/-! ## Generated names -/

/-- Number of values of a `size_t` (64-bit platform): the counter of `unique_string` is a
`std::atomic_size_t`, whose increment wraps at this value. -/
def size_t_range : Nat := 2 ^ 64

/-- Decimal text of an unsigned number, `std::to_string`. -/
def std_to_string (n : Nat) : String := toString n

/-- Modelled from the spec: `native_string_view` (its declaration is not under src/), the
type of a caller-supplied prefix; a view is a pointer and a length. `chars` are the
characters stored from the pointer on, up to the end of the array the pointer points into
(taken to end in a NUL), and `size` is the length of the view. -/
structure string_view where
  chars : String
  size : Nat
deriving DecidableEq, Repr

/-- The view of a string literal, as in `unique_string("gen")`. -/
def string_view.of_literal (s : String) : string_view := ⟨s, s.length⟩

/-- The text that `prefix.data() + ...` reads, context.cpp:180: `data()` is a bare
`char const *`, read as a C string, so the text is what stands before the first NUL from
the pointer on; the length of the view plays no part. -/
def string_view.c_str (v : string_view) : String :=
  String.mk (v.chars.data.takeWhile (fun c => c != Char.ofNat 0))

/-- Generated name: `context::unique_string(prefix)`, context.cpp:177-181, on the value
`index` of the process-wide counter (a function-local static, so no member of any context):
the string returned and the counter afterwards. -/
def unique_string (index : Nat) (pre : string_view) : String × Nat :=
  (pre.c_str ++ std_to_string index, (index + 1) % size_t_range)

/-- Generated name with the default prefix: `context::unique_string()`, context.cpp:175-176. -/
def unique_string_gen (index : Nat) : String × Nat :=
  unique_string index (string_view.of_literal "gen")

/-- Generated symbol: `context::unique_symbol(prefix)`, context.cpp:184-185. -/
def unique_symbol (index : Nat) (pre : string_view) : symbol × Nat :=
  (⟨"", (unique_string index pre).1⟩, (unique_string index pre).2)

/-- A run of calls of `unique_string`, one per prefix of the list and in that order, whoever
makes them, starting at the counter value `index`: the strings returned. -/
def unique_strings : Nat → List string_view → List String
  | _, [] => []
  | index, pre :: rest =>
    (unique_string index pre).1 :: unique_strings (unique_string index pre).2 rest

/-- Whether the last character of a text is a decimal digit. -/
def ends_in_digit (s : String) : Bool :=
  match s.data.getLast? with
  | some c => c.isDigit
  | none => false

/-! ## Cloning -/

/-- What the spec leaves open about the clone of a var (var.cpp and ns.cpp are not under
src/): the owner recorded in the cloned var, as a function of the cloned namespace's box
and the owner recorded in the old var. Every definition and theorem about cloning takes it
as a parameter. -/
abbrev clone_owner := ns_ptr → ns_ptr → ns_ptr

/-- The cloned var is owned by the cloned namespace. -/
def owned_by_clone : clone_owner := fun cloned _ => cloned

/-- The cloned var records the owner of the var it was cloned from. -/
def owner_kept : clone_owner := fun _ old => old

/-- Modelled from the spec: `var::clone` on every entry of a var table (var.cpp and ns.cpp
are not under src/). The spec has the namespace clone own a "var table populated by cloning
each existing var (deep enough that mutating the clone's roots never affects the
original)": every entry gets a new var box with the name, root and metadata of the old
one; the owner it records is given by `co`. -/
def clone_vars (co : clone_owner) (cloned : ns_ptr) : List (symbol × var_ptr) → heap →
    Except fault (List (symbol × var_ptr) × heap)
  | [], h => .ok ([], h)
  | (k, vp) :: rest, h =>
    match h.vars[vp]? with
    | none => .error .no_box
    | some v =>
      let box := h.vars.length
      let h1 : heap := { h with vars := h.vars ++ [{ v with n := co cloned v.n }] }
      match clone_vars co cloned rest h1 with
      | .error e => .error e
      | .ok (t, h2) => .ok ((k, box) :: t, h2)

/-- Modelled from the spec: `ns::clone` (ns.cpp is not under src/): "an independent
namespace with its own var table": a new namespace box with the same name whose var table
holds the clones of the vars. -/
def ns_clone (co : clone_owner) (h : heap) (p : ns_ptr) : Except fault (ns_ptr × heap) :=
  match h.nss[p]? with
  | none => .error .no_box
  | some n =>
    match clone_vars co h.nss.length n.vars h with
    | .error e => .error e
    | .ok (vs, h1) => .ok (h1.nss.length, { h1 with nss := h1.nss ++ [⟨n.name, vs⟩] })

/-- The loop of the copy constructor, context.cpp:84-85: every namespace of the source table
is cloned and inserted under its key. -/
def clone_namespaces (co : clone_owner) : List (symbol × ns_ptr) → List (symbol × ns_ptr) →
    heap → Except fault (List (symbol × ns_ptr) × heap)
  | [], acc, h => .ok (acc, h)
  | (k, p) :: rest, acc, h =>
    match ns_clone co h p with
    | .error e => .error e
    | .ok (p1, h1) => clone_namespaces co rest (map_emplace acc k p1).1 h1

/-- Copy construction: `context::context(context const &)`, context.cpp:81-88. The result is
the world of the clone; the original lives on in the same heap with its own tables. -/
def context_copy (co : clone_owner) (w : world) : Except fault world :=
  match clone_namespaces co w.ctx.namespaces [] w.heap with
  | .error e => .error e
  | .ok (nss, h) =>
    .ok { heap := h,
          ctx := { namespaces := nss, keywords := w.ctx.keywords,
                   thread_states := w.ctx.thread_states } }

/-! ## Well-formedness and reachability -/

/-- Every entry of the keyword table points at a keyword box that carries the entry's key
and is marked resolved. -/
def keywords_ok (w : world) : Prop :=
  ∀ sym k, map_find w.ctx.keywords sym = some k → w.heap.keywords[k]? = some ⟨sym, true⟩

/-- Every entry of the namespace table points at a namespace box named by the entry's key. -/
def namespaces_ok (w : world) : Prop :=
  ∀ k p, map_find w.ctx.namespaces k = some p → ∃ n, w.heap.nss[p]? = some n ∧ n.name = k

/-- The current namespace of every thread that has one is the box that the namespace table
holds under that namespace's own name. -/
def current_ns_ok (w : world) : Prop :=
  ∀ tid ts p cur, map_find w.ctx.thread_states tid = some ts →
    current_ns_of w.heap ts = .ok (p, cur) → map_find w.ctx.namespaces cur.name = some p

/-- Thread `t` has a thread state whose current-namespace var is set and is a var box. -/
def has_current_ns_var (w : world) (t : thread_id) : Prop :=
  ∃ ts vp v, map_find w.ctx.thread_states t = some ts ∧ ts.current_ns = some vp
    ∧ w.heap.vars[vp]? = some v

/-- The worlds of a registry constructed on thread `t` (over an empty heap) and then driven
by calls of `intern_ns`, `intern_var` and `in-ns` from any thread; a call of `in-ns` that
ends in a fault ends the run. -/
inductive reachable (t : thread_id) : world → Prop where
  | construct : reachable t (context_new ⟨[], [], []⟩ t).2
  | intern_ns (w : world) (sym : symbol) : reachable t w → reachable t (intern_ns w sym).2
  | intern_var (w : world) (q : symbol) : reachable t w → reachable t (intern_var w q).2
  | in_ns (w : world) (tid : thread_id) (o : object) :
      reachable t w → (in_ns_fn w tid o).1 = .ok .nil → reachable t (in_ns_fn w tid o).2

/-- The worlds of `reachable`, each with the symbols interned as namespaces on the way to
it: clojure.core by the constructor, then the argument of every call of `intern_ns` and of
every call of `in-ns` with a symbol that returned. -/
inductive reachable_interned (t : thread_id) : List symbol → world → Prop where
  | construct :
      reachable_interned t [symbol_of_string "clojure.core"] (context_new ⟨[], [], []⟩ t).2
  | intern_ns (log : List symbol) (w : world) (sym : symbol) :
      reachable_interned t log w → reachable_interned t (sym :: log) (intern_ns w sym).2
  | intern_var (log : List symbol) (w : world) (q : symbol) :
      reachable_interned t log w → reachable_interned t log (intern_var w q).2
  | in_ns (log : List symbol) (w : world) (tid : thread_id) (s : symbol) :
      reachable_interned t log w → (in_ns_fn w tid (.symbol s)).1 = .ok .nil →
      reachable_interned t (s :: log) (in_ns_fn w tid (.symbol s)).2
  | in_ns_other (log : List symbol) (w : world) (tid : thread_id) (o : object) :
      reachable_interned t log w → (∀ s, o ≠ .symbol s) →
      reachable_interned t log (in_ns_fn w tid o).2

/-- The invariant of a namespace table over a heap: every entry points at a namespace box
named by the entry's key, and every entry (k, v) of that box's var table has a namespace
text that denotes the namespace's name symbol, and points at a var box that is named k and
owned by that namespace box. -/
def table_ok (h : heap) (tbl : List (symbol × ns_ptr)) : Prop :=
  ∀ K p, (K, p) ∈ tbl → ∃ n, h.nss[p]? = some n ∧ n.name = K ∧
    ∀ k vp, (k, vp) ∈ n.vars →
      symbol_of_string k.ns = n.name ∧ ∃ v, h.vars[vp]? = some v ∧ v.name = k ∧ v.n = p

/-- The registry invariant: the namespace table of the context is well formed over the heap. -/
def registry_ok (w : world) : Prop := table_ok w.heap w.ctx.namespaces

/-- The registry invariant without its last part: as `table_ok`, but nothing is said of the
owner that a var records. -/
def table_keys_ok (h : heap) (tbl : List (symbol × ns_ptr)) : Prop :=
  ∀ K p, (K, p) ∈ tbl → ∃ n, h.nss[p]? = some n ∧ n.name = K ∧
    ∀ k vp, (k, vp) ∈ n.vars →
      symbol_of_string k.ns = n.name ∧ ∃ v, h.vars[vp]? = some v ∧ v.name = k

/-- The second heap keeps every namespace box of the first, and every var box up to its root
and metadata. -/
def heap_le (h h1 : heap) : Prop :=
  (∀ (p : ns_ptr) (n : ns), h.nss[p]? = some n → h1.nss[p]? = some n)
  ∧ (∀ (vp : var_ptr) (v : var), h.vars[vp]? = some v →
      ∃ v1, h1.vars[vp]? = some v1 ∧ v1.name = v.name ∧ v1.n = v.n)

/-! ## Worlds used as concrete inputs -/

/-- A fresh registry in which a namespace was interned under the qualified symbol a/b. -/
def world_ab : world := (intern_ns fresh_world ⟨"a", "b"⟩).2

/-- A fresh registry with the namespace b and its var b/x, whose constructing thread then
called `in-ns` with the qualified symbol a/b. -/
def world_in_ab : world :=
  (in_ns_fn (intern_var (intern_ns fresh_world ⟨"", "b"⟩).2 ⟨"b", "x"⟩).2 0 (.symbol ⟨"a", "b"⟩)).2

/-- A fresh registry in which the var clojure.core/x (var 5) was interned. -/
def world_x : world := (intern_var fresh_world ⟨"clojure.core", "x"⟩).2

/-- The clone of `world_x`. -/
def world_x_clone (co : clone_owner) : world :=
  match context_copy co world_x with
  | .ok c => c
  | .error _ => world_x

/-- The clone of the fresh registry. -/
def fresh_clone (co : clone_owner) : world :=
  match context_copy co fresh_world with
  | .ok c => c
  | .error _ => fresh_world

/-! ## Tables: lemmas -/

theorem map_find_cons_self {κ ν : Type} [DecidableEq κ] (m : List (κ × ν)) (k : κ) (v : ν) :
    map_find ((k, v) :: m) k = some v := by
  simp [map_find]

theorem map_find_cons_ne {κ ν : Type} [DecidableEq κ] (m : List (κ × ν)) (k k' : κ) (v : ν)
    (h : k' ≠ k) : map_find ((k', v) :: m) k = map_find m k := by
  simp [map_find, h]

theorem map_emplace_of_none {κ ν : Type} [DecidableEq κ] (m : List (κ × ν)) (k : κ) (v : ν)
    (h : map_find m k = none) : map_emplace m k v = ((k, v) :: m, v) := by
  simp [map_emplace, h]

theorem map_emplace_of_some {κ ν : Type} [DecidableEq κ] (m : List (κ × ν)) (k : κ) (v v' : ν)
    (h : map_find m k = some v') : map_emplace m k v = (m, v') := by
  simp [map_emplace, h]

theorem map_count_eq_zero {κ ν : Type} [DecidableEq κ] (m : List (κ × ν)) (k : κ)
    (h : map_find m k = none) : map_count m k = 0 := by
  induction m with
  | nil => rfl
  | cons e m ih =>
    obtain ⟨k', v⟩ := e
    by_cases hk : k' = k
    · simp [map_find, hk] at h
    · simp only [map_find, hk, if_false] at h
      have := ih h
      simp only [map_count] at this ⊢
      simp [List.filter_cons, hk, this]

theorem map_count_of_nodup {κ ν : Type} [DecidableEq κ] (m : List (κ × ν)) (k : κ) (v : ν)
    (hm : (m.map Prod.fst).Nodup) (h : map_find m k = some v) : map_count m k = 1 := by
  induction m with
  | nil => simp [map_find] at h
  | cons e m ih =>
    obtain ⟨k', v'⟩ := e
    simp only [List.map_cons, List.nodup_cons] at hm
    by_cases hk : k' = k
    · subst hk
      have hnone : map_find m k' = none := by
        cases hf : map_find m k' with
        | none => rfl
        | some x =>
          exfalso
          apply hm.1
          clear ih h hm
          induction m with
          | nil => simp [map_find] at hf
          | cons e m ih =>
            obtain ⟨k2, v2⟩ := e
            by_cases h2 : k2 = k'
            · simp [h2]
            · simp only [map_find, h2, if_false] at hf
              simp [ih hf]
      have := map_count_eq_zero m k' hnone
      simp only [map_count] at this ⊢
      simp [List.filter_cons, this]
    · simp only [map_find, hk, if_false] at h
      have := ih hm.2 h
      simp only [map_count] at this ⊢
      simp [List.filter_cons, hk, this]

/-! ## Keyword interning -/

theorem current_ns_of_ne_runtime_error (h : heap) (ts : thread_state) (what : String) :
    current_ns_of h ts ≠ .error (.runtime_error what) := by
  unfold current_ns_of
  intro hc
  split at hc
  · cases hc
  · split at hc
    · cases hc
    · split at hc
      · cases hc
      · split at hc <;> cases hc
      · cases hc

/-- Interning with resolved = true when the pair is already in the table. -/
theorem intern_keyword_resolved_found (w : world) (tid : thread_id) (ns name : String)
    (k : keyword_ptr) (hf : map_find w.ctx.keywords ⟨ns, name⟩ = some k) :
    intern_keyword w tid ns name true = (.ok k, w) := by
  simp [intern_keyword, hf]

/-- Interning with resolved = true when the pair is not yet in the table. -/
theorem intern_keyword_resolved_fresh (w : world) (tid : thread_id) (ns name : String)
    (hf : map_find w.ctx.keywords ⟨ns, name⟩ = none) :
    intern_keyword w tid ns name true
      = (.ok w.heap.keywords.length,
          { heap := { w.heap with keywords := w.heap.keywords ++ [⟨⟨ns, name⟩, true⟩] },
            ctx := { w.ctx with
              keywords := (⟨ns, name⟩, w.heap.keywords.length) :: w.ctx.keywords } }) := by
  simp [intern_keyword, hf, map_emplace]

/-- C1. For every pair (ns, name) and every registry state whose keyword table is a map (no
key twice), interning the pair with resolved = true twice, from any two threads, returns
the same keyword box both times; the second call leaves the world as the first left it,
and the keyword table then holds exactly one entry for the pair, pointing at that box. -/
theorem intern_keyword_twice_same (w : world) (tid tid' : thread_id) (ns name : String)
    (huniq : (w.ctx.keywords.map Prod.fst).Nodup) :
    ∃ k w1, intern_keyword w tid ns name true = (.ok k, w1)
      ∧ intern_keyword w1 tid' ns name true = (.ok k, w1)
      ∧ map_find w1.ctx.keywords ⟨ns, name⟩ = some k
      ∧ map_count w1.ctx.keywords ⟨ns, name⟩ = 1 := by
  cases hf : map_find w.ctx.keywords ⟨ns, name⟩ with
  | some k =>
    exact ⟨k, w, intern_keyword_resolved_found w tid ns name k hf,
      intern_keyword_resolved_found w tid' ns name k hf, hf,
      map_count_of_nodup _ _ k huniq hf⟩
  | none =>
    refine ⟨_, _, intern_keyword_resolved_fresh w tid ns name hf, ?_, ?_, ?_⟩
    · exact intern_keyword_resolved_found _ tid' ns name _ (map_find_cons_self _ _ _)
    · exact map_find_cons_self _ _ _
    · have := map_count_eq_zero _ _ hf
      simp only [map_count] at this ⊢
      simp [List.filter_cons, this]

theorem intern_keyword_twice_same_witness :
    ∃ k w1, intern_keyword fresh_world 0 "" "macro" true = (.ok k, w1)
      ∧ intern_keyword w1 1 "" "macro" true = (.ok k, w1)
      ∧ map_find w1.ctx.keywords ⟨"", "macro"⟩ = some k
      ∧ map_count w1.ctx.keywords ⟨"", "macro"⟩ = 1 :=
  intern_keyword_twice_same fresh_world 0 1 "" "macro" (by decide)

/-- C3. Keyword interning ends in the "unimplemented" fault exactly when resolved is false
and the namespace text is non-empty; when it does, the world (the keyword table included)
is the one it was called in. -/
theorem intern_keyword_unimplemented_iff (w : world) (tid : thread_id) (ns name : String)
    (resolved : Bool) :
    ((intern_keyword w tid ns name resolved).1
        = .error (.runtime_error "unimplemented: auto-resolved ns aliases")
      ↔ (resolved = false ∧ ns ≠ ""))
    ∧ ((intern_keyword w tid ns name resolved).1
        = .error (.runtime_error "unimplemented: auto-resolved ns aliases")
      → (intern_keyword w tid ns name resolved).2 = w) := by
  have key : (intern_keyword w tid ns name resolved).1
        = .error (.runtime_error "unimplemented: auto-resolved ns aliases")
      ↔ (resolved = false ∧ ns ≠ "") := by
    constructor
    · intro h
      cases resolved with
      | true =>
        exfalso
        simp only [intern_keyword] at h
        cases hf : map_find w.ctx.keywords ⟨ns, name⟩ <;> simp [hf] at h
      | false =>
        refine ⟨rfl, ?_⟩
        intro hns
        subst hns
        simp only [intern_keyword] at h
        simp only [ne_eq, not_true_eq_false, if_false, if_true] at h
        cases hc : current_ns_of w.heap (get_thread_state w.ctx tid none).1 with
        | error e =>
          simp only [hc] at h
          injection h with h
          exact current_ns_of_ne_runtime_error _ _ _ (hc.trans (by rw [h]))
        | ok r =>
          obtain ⟨p, cur⟩ := r
          simp only [hc] at h
          cases hf : map_find (get_thread_state w.ctx tid none).2.keywords
              ⟨cur.name.name, name⟩ <;> simp [hf] at h
    · rintro ⟨hr, hns⟩
      subst hr
      simp [intern_keyword, hns]
  refine ⟨key, fun h => ?_⟩
  obtain ⟨hr, hns⟩ := key.mp h
  subst hr
  simp [intern_keyword, hns]

/-- The thread state handed out to a thread that already has one, and the context untouched. -/
theorem get_thread_state_found (c : context) (tid : thread_id) (init : Option thread_state)
    (ts : thread_state) (h : map_find c.thread_states tid = some ts) :
    get_thread_state c tid init = (ts, c) := by
  simp [get_thread_state, h]

/-- C2. On a thread whose current namespace is the namespace box `cur`, interning the
unresolved keyword ("", name) is the same as interning (c, name) with resolved = true, where
c is the name of `cur`: the same keyword box is returned and the same world is left. In a
registry whose keyword table is well formed, that box carries the symbol (c, name), is
marked resolved, and is the table's entry for (c, name). -/
theorem intern_keyword_auto_resolves (w : world) (tid : thread_id) (name : String)
    (ts : thread_state) (p : ns_ptr) (cur : ns)
    (hts : map_find w.ctx.thread_states tid = some ts)
    (hcur : current_ns_of w.heap ts = .ok (p, cur))
    (hkw : keywords_ok w) :
    intern_keyword w tid "" name false = intern_keyword w tid cur.name.name name true
    ∧ ∃ k w1, intern_keyword w tid "" name false = (.ok k, w1)
        ∧ map_find w1.ctx.keywords ⟨cur.name.name, name⟩ = some k
        ∧ w1.heap.keywords[k]? = some ⟨⟨cur.name.name, name⟩, true⟩ := by
  have hunf : intern_keyword w tid "" name false
      = intern_keyword w tid cur.name.name name true := by
    simp [intern_keyword, get_thread_state_found _ _ _ _ hts, hcur]
  refine ⟨hunf, ?_⟩
  rw [hunf]
  cases hf : map_find w.ctx.keywords ⟨cur.name.name, name⟩ with
  | some k =>
    exact ⟨k, w, intern_keyword_resolved_found w tid _ _ k hf, hf, hkw _ _ hf⟩
  | none =>
    refine ⟨_, _, intern_keyword_resolved_fresh w tid _ _ hf, map_find_cons_self _ _ _, ?_⟩
    simp

/-- The keyword table of a freshly constructed registry is well formed. -/
theorem keywords_ok_fresh_world : keywords_ok fresh_world := by
  intro sym k h
  have : fresh_world.ctx.keywords = [] := rfl
  rw [this] at h
  simp [map_find] at h

theorem intern_keyword_auto_resolves_witness :
    intern_keyword fresh_world 0 "" "macro" false
        = intern_keyword fresh_world 0 "clojure.core" "macro" true
    ∧ ∃ k w1, intern_keyword fresh_world 0 "" "macro" false = (.ok k, w1)
        ∧ map_find w1.ctx.keywords ⟨"clojure.core", "macro"⟩ = some k
        ∧ w1.heap.keywords[k]? = some ⟨⟨"clojure.core", "macro"⟩, true⟩ :=
  intern_keyword_auto_resolves fresh_world 0 "macro" ⟨some 0, some 1⟩ 0
    ⟨⟨"", "clojure.core"⟩,
      [(⟨"clojure.core", "fresh-seq"⟩, 4), (⟨"clojure.core", "seq"⟩, 3),
       (⟨"clojure.core", "assert"⟩, 2), (⟨"clojure.core", "in-ns"⟩, 1),
       (⟨"clojure.core", "*ns*"⟩, 0)]⟩
    rfl rfl keywords_ok_fresh_world

/-! ## Namespace interning -/

/-- C4. Interning a namespace a second time with an equal symbol returns the same namespace
box as the first call and leaves the whole world as the first call left it: the namespace
table, every namespace's var table, and every var with its root and metadata. -/
theorem intern_ns_idempotent (w : world) (sym sym' : symbol) :
    sym' = sym →
    intern_ns (intern_ns w sym).2 sym' = ((intern_ns w sym).1, (intern_ns w sym).2) := by
  intro he
  subst he
  cases hf : map_find w.ctx.namespaces sym' with
  | some p => simp [intern_ns, hf]
  | none => simp [intern_ns, hf, map_emplace, map_find]

theorem intern_ns_idempotent_witness :
    intern_ns (intern_ns fresh_world ⟨"", "user"⟩).2 ⟨"", "user"⟩
      = ((intern_ns fresh_world ⟨"", "user"⟩).1, (intern_ns fresh_world ⟨"", "user"⟩).2) :=
  intern_ns_idempotent fresh_world ⟨"", "user"⟩ ⟨"", "user"⟩ rfl

/-! ## Var interning -/

/-- C6. For every registry state and every symbol whose namespace component is empty,
var interning returns the "sym isn't qualified" error as its result value (no fault is
raised) and leaves the world untouched, whatever namespaces exist. -/
theorem intern_var_unqualified (w : world) (sym : symbol) (h : sym.ns = "") :
    intern_var w sym = (.ok (.error "can't intern var; sym isn't qualified"), w) := by
  simp [intern_var, h]

theorem intern_var_unqualified_witness :
    intern_var fresh_world ⟨"", "x"⟩
      = (.ok (.error "can't intern var; sym isn't qualified"), fresh_world) :=
  intern_var_unqualified fresh_world ⟨"", "x"⟩ rfl

/-- Var interning of a qualified symbol when the namespace table has no entry under the
symbol that the namespace text denotes: the "namespace doesn't exist" error is returned as a
value and the world is untouched. -/
theorem intern_var_missing_namespace (w : world) (q : symbol) (hq : q.ns ≠ "")
    (habsent : map_find w.ctx.namespaces (symbol_of_string q.ns) = none) :
    intern_var w q = (.ok (.error "can't intern var; namespace doesn't exist"), w) := by
  simp [intern_var, hq, habsent]

/-! ## Effects of the operations -/

theorem current_ns_of_eq_ok (h : heap) (ts : thread_state) (p : ns_ptr) (cur : ns) :
    current_ns_of h ts = .ok (p, cur) ↔
      ∃ vp v, ts.current_ns = some vp ∧ h.vars[vp]? = some v ∧ v.root = some (.ns p)
        ∧ h.nss[p]? = some cur := by
  unfold current_ns_of
  constructor
  · intro hc
    split at hc
    · cases hc
    · rename_i vp hvp
      split at hc
      · cases hc
      · rename_i v hv
        split at hc
        · cases hc
        · rename_i p' hp'
          split at hc
          · cases hc
          · rename_i n hn
            simp only [Except.ok.injEq, Prod.mk.injEq] at hc
            obtain ⟨rfl, rfl⟩ := hc
            exact ⟨vp, v, hvp, hv, hp', hn⟩
        · cases hc
  · rintro ⟨vp, v, hvp, hv, hroot, hn⟩
    simp [hvp, hv, hroot, hn]

/-- Namespace interning when the symbol is in the table. -/
theorem intern_ns_found (w : world) (sym : symbol) (p : ns_ptr)
    (hf : map_find w.ctx.namespaces sym = some p) : intern_ns w sym = (p, w) := by
  simp [intern_ns, hf]

/-- Namespace interning when the symbol is not in the table. -/
theorem intern_ns_fresh (w : world) (sym : symbol)
    (hf : map_find w.ctx.namespaces sym = none) :
    intern_ns w sym
      = (w.heap.nss.length,
          { heap := { w.heap with nss := w.heap.nss ++ [⟨sym, []⟩] },
            ctx := { w.ctx with namespaces := (sym, w.heap.nss.length) :: w.ctx.namespaces } }) := by
  simp [intern_ns, hf, map_emplace]

/-- After interning, the table holds the returned box under the symbol. -/
theorem intern_ns_registers (w : world) (sym : symbol) :
    map_find (intern_ns w sym).2.ctx.namespaces sym = some (intern_ns w sym).1 := by
  cases hf : map_find w.ctx.namespaces sym with
  | some p => rw [intern_ns_found w sym p hf]; exact hf
  | none => rw [intern_ns_fresh w sym hf]; exact map_find_cons_self _ _ _

/-- Var interning when the namespace holds the symbol. -/
theorem intern_var_found (w : world) (q : symbol) (np : ns_ptr) (n : ns) (v : var_ptr)
    (hq : q.ns ≠ "") (hns : map_find w.ctx.namespaces (symbol_of_string q.ns) = some np)
    (hbox : w.heap.nss[np]? = some n) (hv : map_find n.vars q = some v) :
    intern_var w q = (.ok (.ok v), w) := by
  simp [intern_var, hq, hns, hbox, hv]

/-- Var interning when the namespace exists and does not hold the symbol. -/
theorem intern_var_fresh (w : world) (q : symbol) (np : ns_ptr) (n : ns)
    (hq : q.ns ≠ "") (hns : map_find w.ctx.namespaces (symbol_of_string q.ns) = some np)
    (hbox : w.heap.nss[np]? = some n) (hv : map_find n.vars q = none) :
    intern_var w q
      = (.ok (.ok w.heap.vars.length),
          { w with heap :=
            { nss := w.heap.nss.set np { n with vars := (q, w.heap.vars.length) :: n.vars },
              vars := w.heap.vars ++ [⟨np, q, none, none⟩],
              keywords := w.heap.keywords } }) := by
  simp [intern_var, hq, hns, hbox, hv, map_emplace, heap.set_vars]

/-- Var interning either leaves the world alone or creates one var in an existing namespace. -/
theorem intern_var_world (w : world) (q : symbol) :
    (intern_var w q).2 = w ∨
    ∃ np n, w.heap.nss[np]? = some n ∧
      (intern_var w q).2 = { w with heap :=
            { nss := w.heap.nss.set np { n with vars := (q, w.heap.vars.length) :: n.vars },
              vars := w.heap.vars ++ [⟨np, q, none, none⟩],
              keywords := w.heap.keywords } } := by
  by_cases hq : q.ns = ""
  · left; simp [intern_var, hq]
  · cases hns : map_find w.ctx.namespaces (symbol_of_string q.ns) with
    | none => left; simp [intern_var, hq, hns]
    | some np =>
      cases hbox : w.heap.nss[np]? with
      | none => left; simp [intern_var, hq, hns, hbox]
      | some n =>
        cases hv : map_find n.vars q with
        | some v => left; rw [intern_var_found w q np n v hq hns hbox hv]
        | none => right; exact ⟨np, n, hbox, by rw [intern_var_fresh w q np n hq hns hbox hv]⟩

/-- A successful `in-ns`: either the argument was no symbol and nothing happened, or the
namespace was interned and the root of the calling thread's current-namespace var now is
that namespace. -/
theorem in_ns_fn_world (w : world) (tid : thread_id) (o : object)
    (hok : (in_ns_fn w tid o).1 = .ok .nil) :
    (in_ns_fn w tid o).2 = w ∨
    ∃ s ts vp v, o = .symbol s
      ∧ map_find (intern_ns w s).2.ctx.thread_states tid = some ts
      ∧ ts.current_ns = some vp
      ∧ (intern_ns w s).2.heap.vars[vp]? = some v
      ∧ (in_ns_fn w tid o).2 = { (intern_ns w s).2 with heap :=
          { (intern_ns w s).2.heap with
            vars := (intern_ns w s).2.heap.vars.set vp { v with root := some (.ns (intern_ns w s).1) } } } := by
  cases o with
  | symbol s =>
    right
    cases hts : map_find (intern_ns w s).2.ctx.thread_states tid with
    | none =>
      exfalso
      simp [in_ns_fn, get_thread_state, hts, map_emplace] at hok
    | some ts =>
      cases hvp : ts.current_ns with
      | none =>
        exfalso
        simp [in_ns_fn, get_thread_state, hts, hvp] at hok
      | some vp =>
        cases hv : (intern_ns w s).2.heap.vars[vp]? with
        | none =>
          exfalso
          simp [in_ns_fn, get_thread_state, hts, hvp, heap.set_root, hv] at hok
        | some v =>
          refine ⟨s, ts, vp, v, rfl, hts, hvp, hv, ?_⟩
          simp [in_ns_fn, get_thread_state, hts, hvp, heap.set_root, hv]
  | _ => left; rfl

/-! ## Construction -/

theorem symbol_of_string_core : symbol_of_string "clojure.core" = ⟨"", "clojure.core"⟩ := rfl

theorem symbol_of_string_ns :
    symbol_of_string "clojure.core/*ns*" = ⟨"clojure.core", "*ns*"⟩ := rfl

theorem symbol_of_string_in_ns :
    symbol_of_string "clojure.core/in-ns" = ⟨"clojure.core", "in-ns"⟩ := rfl

theorem symbol_of_string_assert :
    symbol_of_string "clojure.core/assert" = ⟨"clojure.core", "assert"⟩ := rfl

theorem symbol_of_string_seq :
    symbol_of_string "clojure.core/seq" = ⟨"clojure.core", "seq"⟩ := rfl

theorem symbol_of_string_fresh_seq :
    symbol_of_string "clojure.core/fresh-seq" = ⟨"clojure.core", "fresh-seq"⟩ := rfl

/-- Construction on any thread succeeds, and differs from construction on thread 0 only in
the key of the one thread state. -/
theorem context_new_eq (t : thread_id) :
    context_new ⟨[], [], []⟩ t
      = (.ok (), { heap := fresh_world.heap,
                   ctx := { fresh_world.ctx with thread_states := [(t, ⟨some 0, some 1⟩)] } }) := by
  simp [context_new, get_thread_state, map_find, map_emplace, intern_ns, install_native,
    intern_var, map_assign, heap.set_vars, heap.set_root, symbol_of_string_core,
    symbol_of_string_ns, symbol_of_string_in_ns, symbol_of_string_assert,
    symbol_of_string_seq, symbol_of_string_fresh_seq, fresh_world]

/-! ## The invariants hold in every reachable world -/

theorem lt_length_of_get {α : Type} {l : List α} {i : Nat} {a : α} (h : l[i]? = some a) :
    i < l.length := by
  by_contra hc
  rw [List.getElem?_eq_none (Nat.le_of_not_lt hc)] at h
  cases h

theorem namespaces_ok_intern_ns (w : world) (sym : symbol) (h : namespaces_ok w) :
    namespaces_ok (intern_ns w sym).2 := by
  cases hf : map_find w.ctx.namespaces sym with
  | some p => rw [intern_ns_found w sym p hf]; exact h
  | none =>
    rw [intern_ns_fresh w sym hf]
    intro k p hk
    dsimp only at hk ⊢
    by_cases hks : sym = k
    · subst hks
      rw [map_find_cons_self] at hk
      cases hk
      exact ⟨⟨sym, []⟩, List.getElem?_concat_length _ _, rfl⟩
    · rw [map_find_cons_ne _ _ _ _ hks] at hk
      obtain ⟨n, hn, hname⟩ := h k p hk
      exact ⟨n, by rw [List.getElem?_append_left (lt_length_of_get hn)]; exact hn, hname⟩

theorem namespaces_ok_intern_var (w : world) (q : symbol) (h : namespaces_ok w) :
    namespaces_ok (intern_var w q).2 := by
  rcases intern_var_world w q with hw | ⟨np, n, hbox, hw⟩
  · rw [hw]; exact h
  · rw [hw]
    intro k p hk
    dsimp only at hk ⊢
    obtain ⟨n0, hn0, hname⟩ := h k p hk
    by_cases hp : np = p
    · subst hp
      rw [hbox] at hn0
      cases hn0
      exact ⟨_, List.getElem?_set_self (lt_length_of_get hbox), hname⟩
    · exact ⟨n0, by rw [List.getElem?_set_ne hp]; exact hn0, hname⟩

theorem namespaces_ok_in_ns_fn (w : world) (tid : thread_id) (o : object)
    (hok : (in_ns_fn w tid o).1 = .ok .nil) (h : namespaces_ok w) :
    namespaces_ok (in_ns_fn w tid o).2 := by
  rcases in_ns_fn_world w tid o hok with hw | ⟨s, ts, vp, v, _, _, _, _, hw⟩
  · rw [hw]; exact h
  · rw [hw]
    exact namespaces_ok_intern_ns w s h

theorem current_ns_ok_intern_ns (w : world) (sym : symbol) (h : current_ns_ok w) :
    current_ns_ok (intern_ns w sym).2 := by
  cases hf : map_find w.ctx.namespaces sym with
  | some p => rw [intern_ns_found w sym p hf]; exact h
  | none =>
    rw [intern_ns_fresh w sym hf]
    intro tid ts p cur hts hcur
    dsimp only at hts hcur ⊢
    rw [current_ns_of_eq_ok] at hcur
    obtain ⟨vp, v, hvp, hv, hroot, hn⟩ := hcur
    dsimp only at hv hn
    by_cases hp : p < w.heap.nss.length
    · rw [List.getElem?_append_left hp] at hn
      have hold := h tid ts p cur hts ((current_ns_of_eq_ok _ _ _ _).mpr ⟨vp, v, hvp, hv, hroot, hn⟩)
      have hne : sym ≠ cur.name := by
        intro he
        rw [he, hold] at hf
        cases hf
      rw [map_find_cons_ne _ _ _ _ hne]
      exact hold
    · have hlen : p = w.heap.nss.length := by
        have h1 : p < w.heap.nss.length + 1 := by
          have := lt_length_of_get hn
          simpa using this
        exact Nat.le_antisymm (Nat.lt_succ_iff.mp h1) (Nat.le_of_not_lt hp)
      subst hlen
      rw [List.getElem?_concat_length] at hn
      cases hn
      exact map_find_cons_self _ _ _

theorem current_ns_ok_intern_var (w : world) (q : symbol) (h : current_ns_ok w) :
    current_ns_ok (intern_var w q).2 := by
  rcases intern_var_world w q with hw | ⟨np, n, hbox, hw⟩
  · rw [hw]; exact h
  · rw [hw]
    intro tid ts p cur hts hcur
    dsimp only at hts hcur ⊢
    rw [current_ns_of_eq_ok] at hcur
    obtain ⟨vp, v, hvp, hv, hroot, hn⟩ := hcur
    dsimp only at hv hn
    have hv0 : w.heap.vars[vp]? = some v := by
      by_cases hlt : vp < w.heap.vars.length
      · rw [List.getElem?_append_left hlt] at hv
        exact hv
      · exfalso
        have hlen : vp = w.heap.vars.length := by
          have h1 : vp < w.heap.vars.length + 1 := by
            have := lt_length_of_get hv
            simpa using this
          exact Nat.le_antisymm (Nat.lt_succ_iff.mp h1) (Nat.le_of_not_lt hlt)
        subst hlen
        rw [List.getElem?_concat_length] at hv
        cases hv
        cases hroot
    by_cases hp : np = p
    · subst hp
      rw [List.getElem?_set_self (lt_length_of_get hbox)] at hn
      cases hn
      exact h tid ts np n hts ((current_ns_of_eq_ok _ _ _ _).mpr ⟨vp, v, hvp, hv0, hroot, hbox⟩)
    · rw [List.getElem?_set_ne hp] at hn
      exact h tid ts p cur hts ((current_ns_of_eq_ok _ _ _ _).mpr ⟨vp, v, hvp, hv0, hroot, hn⟩)

theorem current_ns_ok_in_ns_fn (w : world) (tid : thread_id) (o : object)
    (hok : (in_ns_fn w tid o).1 = .ok .nil) (hn : namespaces_ok w) (h : current_ns_ok w) :
    current_ns_ok (in_ns_fn w tid o).2 := by
  rcases in_ns_fn_world w tid o hok with hw | ⟨s, ts, vp, v, _, _, _, hv, hw⟩
  · rw [hw]; exact h
  · rw [hw]
    have h1 := current_ns_ok_intern_ns w s h
    have hn1 := namespaces_ok_intern_ns w s hn
    intro tid2 ts2 p2 cur2 hts2 hcur2
    dsimp only at hts2 hcur2 ⊢
    rw [current_ns_of_eq_ok] at hcur2
    obtain ⟨vp2, v2, hvp2, hv2, hroot2, hn2⟩ := hcur2
    dsimp only at hv2 hn2
    by_cases hp : vp = vp2
    · subst hp
      rw [List.getElem?_set_self (lt_length_of_get hv)] at hv2
      cases hv2
      dsimp only at hroot2
      cases hroot2
      obtain ⟨n, hbox, hname⟩ := hn1 s _ (intern_ns_registers w s)
      rw [hbox] at hn2
      cases hn2
      rw [hname]
      exact intern_ns_registers w s
    · rw [List.getElem?_set_ne hp] at hv2
      exact h1 tid2 ts2 p2 cur2 hts2
        ((current_ns_of_eq_ok _ _ _ _).mpr ⟨vp2, v2, hvp2, hv2, hroot2, hn2⟩)

theorem has_current_ns_var_intern_ns (w : world) (t : thread_id) (sym : symbol)
    (h : has_current_ns_var w t) : has_current_ns_var (intern_ns w sym).2 t := by
  cases hf : map_find w.ctx.namespaces sym with
  | some p => rw [intern_ns_found w sym p hf]; exact h
  | none => rw [intern_ns_fresh w sym hf]; exact h

theorem has_current_ns_var_intern_var (w : world) (t : thread_id) (q : symbol)
    (h : has_current_ns_var w t) : has_current_ns_var (intern_var w q).2 t := by
  rcases intern_var_world w q with hw | ⟨np, n, hbox, hw⟩
  · rw [hw]; exact h
  · rw [hw]
    obtain ⟨ts, vp, v, hts, hvp, hv⟩ := h
    refine ⟨ts, vp, v, hts, hvp, ?_⟩
    dsimp only
    rw [List.getElem?_append_left (lt_length_of_get hv)]
    exact hv

theorem has_current_ns_var_in_ns_fn (w : world) (t tid : thread_id) (o : object)
    (hok : (in_ns_fn w tid o).1 = .ok .nil) (h : has_current_ns_var w t) :
    has_current_ns_var (in_ns_fn w tid o).2 t := by
  rcases in_ns_fn_world w tid o hok with hw | ⟨s, ts, vp, v, _, _, _, hv, hw⟩
  · rw [hw]; exact h
  · rw [hw]
    obtain ⟨ts1, vp1, v1, hts1, hvp1, hv1⟩ := has_current_ns_var_intern_ns w t s h
    by_cases hp : vp = vp1
    · subst hp
      exact ⟨ts1, vp, _, hts1, hvp1, List.getElem?_set_self (lt_length_of_get hv)⟩
    · exact ⟨ts1, vp1, v1, hts1, hvp1, by dsimp only; rw [List.getElem?_set_ne hp]; exact hv1⟩

/-- The invariants of a registry constructed on thread `t`: the namespace table points at
boxes named by their keys, every current namespace is a registered one, and thread `t` has
a current-namespace var. -/
theorem reachable_ok (t : thread_id) (w : world) (hr : reachable t w) :
    namespaces_ok w ∧ current_ns_ok w ∧ has_current_ns_var w t := by
  induction hr with
  | construct =>
    rw [context_new_eq]
    refine ⟨?_, ?_, ?_⟩
    · intro k p hk
      have hk' : map_find [((⟨"", "clojure.core"⟩ : symbol), (0 : ns_ptr))] k = some p := hk
      simp only [map_find] at hk'
      split at hk'
      · rename_i he
        cases hk'
        subst he
        exact ⟨_, rfl, rfl⟩
      · cases hk'
    · intro tid ts p cur hts hcur
      have hts' : map_find [(t, (⟨some 0, some 1⟩ : thread_state))] tid = some ts := hts
      simp only [map_find] at hts'
      split at hts'
      · cases hts'
        have hc : current_ns_of fresh_world.heap ⟨some 0, some 1⟩ = .ok (p, cur) := hcur
        have hc0 : current_ns_of fresh_world.heap ⟨some 0, some 1⟩
            = .ok (0, ⟨⟨"", "clojure.core"⟩,
                [(⟨"clojure.core", "fresh-seq"⟩, 4), (⟨"clojure.core", "seq"⟩, 3),
                 (⟨"clojure.core", "assert"⟩, 2), (⟨"clojure.core", "in-ns"⟩, 1),
                 (⟨"clojure.core", "*ns*"⟩, 0)]⟩) := rfl
        rw [hc0] at hc
        cases hc
        rfl
      · cases hts'
    · exact ⟨⟨some 0, some 1⟩, 0, _, map_find_cons_self _ _ _, rfl, rfl⟩
  | intern_ns w sym _ ih =>
    exact ⟨namespaces_ok_intern_ns w sym ih.1, current_ns_ok_intern_ns w sym ih.2.1,
      has_current_ns_var_intern_ns w t sym ih.2.2⟩
  | intern_var w q _ ih =>
    exact ⟨namespaces_ok_intern_var w q ih.1, current_ns_ok_intern_var w q ih.2.1,
      has_current_ns_var_intern_var w t q ih.2.2⟩
  | in_ns w tid o _ hok ih =>
    exact ⟨namespaces_ok_in_ns_fn w tid o hok ih.1,
      current_ns_ok_in_ns_fn w tid o hok ih.1 ih.2.1,
      has_current_ns_var_in_ns_fn w t tid o hok ih.2.2⟩

/-! ## Var interning and lookup -/

/-- Var interning in a namespace that exists: a var is returned, the namespace box then
holds it under the symbol, keeps its name, and a second call changes nothing. -/
theorem intern_var_in_existing (w : world) (q : symbol) (p : ns_ptr) (n : ns)
    (hq : q.ns ≠ "") (hns : map_find w.ctx.namespaces (symbol_of_string q.ns) = some p)
    (hbox : w.heap.nss[p]? = some n) :
    ∃ v w1 n1, intern_var w q = (.ok (.ok v), w1) ∧ w1.ctx = w.ctx
      ∧ w1.heap.nss[p]? = some n1 ∧ n1.name = n.name ∧ map_find n1.vars q = some v
      ∧ intern_var w1 q = (.ok (.ok v), w1) := by
  cases hv : map_find n.vars q with
  | some v =>
    have h1 := intern_var_found w q p n v hq hns hbox hv
    exact ⟨v, w, n, h1, rfl, hbox, rfl, hv, h1⟩
  | none =>
    have h1 := intern_var_fresh w q p n hq hns hbox hv
    refine ⟨_, _, _, h1, rfl, List.getElem?_set_self (lt_length_of_get hbox), rfl,
      map_find_cons_self _ _ _, ?_⟩
    exact intern_var_found _ q p _ _ hq hns
      (List.getElem?_set_self (lt_length_of_get hbox)) (map_find_cons_self _ _ _)

/-- C5 (amended). The namespace created by `intern_ns` is registered under the whole
symbol. For every symbol s without a namespace component whose name is non-empty and reads
as a bare name (the one-string symbol constructor gives it no namespace), and every x: after
`intern_ns(s)`, `intern_var((s.name, x))` succeeds, and the var it returns is held by the
namespace box that `intern_ns` returned. -/
theorem intern_ns_then_intern_var (w : world) (s : symbol) (x : String)
    (hw : namespaces_ok w) (hns : s.ns = "") (hname : s.name ≠ "")
    (hbare : symbol_of_string s.name = ⟨"", s.name⟩) :
    ∃ v w2 n, intern_var (intern_ns w s).2 ⟨s.name, x⟩ = (.ok (.ok v), w2)
      ∧ w2.heap.nss[(intern_ns w s).1]? = some n
      ∧ map_find n.vars ⟨s.name, x⟩ = some v := by
  have hs : symbol_of_string s.name = s := by
    rw [hbare]
    cases s
    simp only at hns
    simp [hns]
  obtain ⟨n0, hbox, _⟩ := namespaces_ok_intern_ns w s hw s _ (intern_ns_registers w s)
  have hreg : map_find (intern_ns w s).2.ctx.namespaces
      (symbol_of_string (symbol.mk s.name x).ns) = some (intern_ns w s).1 := by
    show map_find _ (symbol_of_string s.name) = _
    rw [hs]
    exact intern_ns_registers w s
  obtain ⟨v, w2, n1, h1, _, h3, _, h5, _⟩ :=
    intern_var_in_existing (intern_ns w s).2 ⟨s.name, x⟩ _ n0 hname hreg hbox
  exact ⟨v, w2, n1, h1, h3, h5⟩

theorem intern_ns_then_intern_var_witness :
    ∃ v w2 n, intern_var (intern_ns fresh_world ⟨"", "user"⟩).2 ⟨"user", "x"⟩ = (.ok (.ok v), w2)
      ∧ w2.heap.nss[(intern_ns fresh_world ⟨"", "user"⟩).1]? = some n
      ∧ map_find n.vars ⟨"user", "x"⟩ = some v :=
  intern_ns_then_intern_var fresh_world ⟨"", "user"⟩ "x"
    (reachable_ok 0 fresh_world reachable.construct).1 rfl (by decide) rfl

/-- C5 as stated fails: after `intern_ns` of the symbol a/b (namespace a, name b) in a fresh
registry, `intern_var((b, x))` returns the "namespace doesn't exist" error. -/
theorem intern_ns_qualified_not_by_name :
    (intern_var (intern_ns fresh_world ⟨"a", "b"⟩).2 ⟨"b", "x"⟩).1
      = .ok (.error "can't intern var; namespace doesn't exist") := rfl

/-- Var interning and lookup agree for every qualified symbol q whose namespace text is a
bare name (the one-string symbol constructor gives it no namespace) and whose namespace is
registered under that name: `intern_var(q)` succeeds; a second `intern_var(q)` returns the
same var box and leaves the whole world as it was; and `find_var(q)`, from any thread,
returns that var. -/
theorem intern_var_get_or_create (w : world) (q : symbol) (p : ns_ptr) (n : ns)
    (hq : q.ns ≠ "") (hbare : symbol_of_string q.ns = ⟨"", q.ns⟩)
    (hns : map_find w.ctx.namespaces ⟨"", q.ns⟩ = some p) (hbox : w.heap.nss[p]? = some n) :
    ∃ v w1, intern_var w q = (.ok (.ok v), w1)
      ∧ intern_var w1 q = (.ok (.ok v), w1)
      ∧ ∀ tid, find_var w1 tid q = (.ok (some v), w1) := by
  obtain ⟨v, w1, n1, h1, hctx, hbox1, _, hv1, h2⟩ :=
    intern_var_in_existing w q p n hq (by rw [hbare]; exact hns) hbox
  refine ⟨v, w1, h1, h2, fun tid => ?_⟩
  simp [find_var, hq, hctx, hns, hbox1, hv1]

theorem intern_var_get_or_create_witness :
    ∃ v w1, intern_var fresh_world ⟨"clojure.core", "x"⟩ = (.ok (.ok v), w1)
      ∧ intern_var w1 ⟨"clojure.core", "x"⟩ = (.ok (.ok v), w1)
      ∧ ∀ tid, find_var w1 tid ⟨"clojure.core", "x"⟩ = (.ok (some v), w1) :=
  intern_var_get_or_create fresh_world ⟨"clojure.core", "x"⟩ 0
    ⟨⟨"", "clojure.core"⟩,
      [(⟨"clojure.core", "fresh-seq"⟩, 4), (⟨"clojure.core", "seq"⟩, 3),
       (⟨"clojure.core", "assert"⟩, 2), (⟨"clojure.core", "in-ns"⟩, 1),
       (⟨"clojure.core", "*ns*"⟩, 0)]⟩
    (by decide) rfl rfl rfl

/-- C8, evaluated at a failing input. In the reachable world that holds the namespace
interned under the symbol a/b, `intern_var` of the symbol with namespace text "a/b" and name
x finds that namespace (it looks under the symbol read from "a/b") and returns var 5; a
second call returns var 5 again and changes nothing; but `find_var` of the same symbol
looks under the symbol with empty namespace and name "a/b", finds no namespace and reports
not-found. -/
theorem find_var_misses_interned_var :
    reachable 0 world_ab
    ∧ (intern_var world_ab ⟨"a/b", "x"⟩).1 = .ok (.ok 5)
    ∧ intern_var (intern_var world_ab ⟨"a/b", "x"⟩).2 ⟨"a/b", "x"⟩
        = (.ok (.ok 5), (intern_var world_ab ⟨"a/b", "x"⟩).2)
    ∧ (find_var (intern_var world_ab ⟨"a/b", "x"⟩).2 0 ⟨"a/b", "x"⟩).1 = .ok none :=
  ⟨reachable.intern_ns _ _ reachable.construct, rfl, rfl, rfl⟩

/-- A call of `in-ns` with a symbol that is registered, on a thread that has a
current-namespace var: the var's root becomes the registered namespace. -/
theorem in_ns_fn_registered (w : world) (tid : thread_id) (s : symbol) (p : ns_ptr)
    (ts : thread_state) (vp : var_ptr) (v : var)
    (hreg : map_find w.ctx.namespaces s = some p)
    (hts : map_find w.ctx.thread_states tid = some ts) (hvp : ts.current_ns = some vp)
    (hv : w.heap.vars[vp]? = some v) :
    in_ns_fn w tid (.symbol s)
      = (.ok .nil, { w with heap :=
          { w.heap with vars := w.heap.vars.set vp { v with root := some (.ns p) } } }) := by
  simp [in_ns_fn, intern_ns_found w s p hreg, get_thread_state_found _ _ _ _ hts, hvp,
    heap.set_root, hv]

/-- Lookup of an unqualified symbol on a thread that has a current namespace. -/
theorem find_var_unqualified (w : world) (tid : thread_id) (s : symbol) (ts : thread_state)
    (p : ns_ptr) (cur : ns) (hs : s.ns = "")
    (hts : map_find w.ctx.thread_states tid = some ts)
    (hcur : current_ns_of w.heap ts = .ok (p, cur)) :
    find_var w tid s = (.ok (map_find cur.vars ⟨cur.name.name, s.name⟩), w) := by
  simp [find_var, hs, get_thread_state_found _ _ _ _ hts, hcur]

/-- Qualification of an unqualified symbol on a thread that has a current namespace. -/
theorem qualify_symbol_unqualified (w : world) (tid : thread_id) (s : symbol)
    (ts : thread_state) (p : ns_ptr) (cur : ns) (hs : s.ns = "")
    (hts : map_find w.ctx.thread_states tid = some ts)
    (hcur : current_ns_of w.heap ts = .ok (p, cur)) :
    qualify_symbol w tid s = (.ok ⟨cur.name.name, s.name⟩, w) := by
  simp [qualify_symbol, hs, get_thread_state_found _ _ _ _ hts, hcur]

/-- C9 (amended). In every world of a registry, for every non-empty namespace name n that
reads as a bare name (the one-string symbol constructor gives it no namespace), every var
name x and every calling thread that has a current-namespace var (such as the thread that
constructed the registry): after `intern_ns(n)`, then `v = intern_var(n, x)`, then `in-ns(n)`
on the calling thread, `find_var` of the unqualified symbol x on that thread returns exactly
the var v. -/
theorem find_var_after_in_ns (t : thread_id) (w : world) (tid : thread_id) (n x : String)
    (hr : reachable t w) (hcv : has_current_ns_var w tid)
    (hn : n ≠ "") (hbare : symbol_of_string n = ⟨"", n⟩) :
    ∃ v w2 w3,
      intern_var_of (intern_ns w (symbol_of_string n)).2 n x = (.ok (.ok v), w2)
      ∧ in_ns_fn w2 tid (.symbol (symbol_of_string n)) = (.ok .nil, w3)
      ∧ find_var w3 tid ⟨"", x⟩ = (.ok (some v), w3) := by
  rw [hbare]
  have hr1 : reachable t (intern_ns w ⟨"", n⟩).2 := reachable.intern_ns w _ hr
  have hreg := intern_ns_registers w ⟨"", n⟩
  obtain ⟨n0, hbox, hname0⟩ := (reachable_ok t _ hr1).1 _ _ hreg
  have hreg' : map_find (intern_ns w ⟨"", n⟩).2.ctx.namespaces
      (symbol_of_string (symbol.mk n x).ns) = some (intern_ns w ⟨"", n⟩).1 := by
    show map_find _ (symbol_of_string n) = _
    rw [hbare]
    exact hreg
  obtain ⟨v, w2, n1, h1, hctx, hbox1, hname1, hv1, _⟩ :=
    intern_var_in_existing (intern_ns w ⟨"", n⟩).2 ⟨n, x⟩ _ n0 hn hreg' hbox
  have hcv2 : has_current_ns_var w2 tid := by
    have := has_current_ns_var_intern_var _ tid ⟨n, x⟩
      (has_current_ns_var_intern_ns w tid ⟨"", n⟩ hcv)
    rw [h1] at this
    exact this
  obtain ⟨ts, vp, v0, hts, hvp, hv0⟩ := hcv2
  have hreg2 : map_find w2.ctx.namespaces ⟨"", n⟩ = some (intern_ns w ⟨"", n⟩).1 := by
    rw [hctx]; exact hreg
  refine ⟨v, w2, _, h1, in_ns_fn_registered w2 tid _ _ ts vp v0 hreg2 hts hvp hv0, ?_⟩
  have hcur : current_ns_of
      ({ w2.heap with vars :=
          (w2.heap.vars.set vp { v0 with root := some (.ns (intern_ns w ⟨"", n⟩).1) }) } : heap)
      ts
      = .ok ((intern_ns w ⟨"", n⟩).1, n1) :=
    (current_ns_of_eq_ok _ _ _ _).mpr
      ⟨vp, _, hvp, List.getElem?_set_self (lt_length_of_get hv0), rfl, hbox1⟩
  have hfind := find_var_unqualified
    ({ w2 with heap := { w2.heap with vars :=
          (w2.heap.vars.set vp { v0 with root := some (.ns (intern_ns w ⟨"", n⟩).1) }) } } : world)
    tid ⟨"", x⟩ ts _ n1 rfl hts hcur
  rw [hfind, hname1, hname0]
  show (Except.ok (map_find n1.vars ⟨n, x⟩), _) = _
  rw [hv1]

theorem find_var_after_in_ns_witness :
    ∃ v w2 w3,
      intern_var_of (intern_ns fresh_world (symbol_of_string "user")).2 "user" "x"
        = (.ok (.ok v), w2)
      ∧ in_ns_fn w2 0 (.symbol (symbol_of_string "user")) = (.ok .nil, w3)
      ∧ find_var w3 0 ⟨"", "x"⟩ = (.ok (some v), w3) :=
  find_var_after_in_ns 0 fresh_world 0 "user" "x" reachable.construct
    ⟨⟨some 0, some 1⟩, 0, _, rfl, rfl, rfl⟩ (by decide) rfl

/-- C9 as stated fails in three ways. With n = "a/b" (which the symbol constructor reads as
namespace a, name b) all three calls succeed on the constructing thread, `intern_var`
returns var 5, and `find_var` of the unqualified x reports not-found. With n = "" the call
of `intern_var` returns the "sym isn't qualified" error, so there is no var to find. With
n = "user" on thread 1, which has no thread state yet, `in-ns` ends in a null dereference. -/
theorem find_var_after_in_ns_fails :
    ((intern_var_of (intern_ns fresh_world (symbol_of_string "a/b")).2 "a/b" "x").1
        = .ok (.ok 5)
      ∧ (in_ns_fn (intern_var_of (intern_ns fresh_world (symbol_of_string "a/b")).2 "a/b" "x").2
          0 (.symbol (symbol_of_string "a/b"))).1 = .ok .nil
      ∧ (find_var
          (in_ns_fn (intern_var_of (intern_ns fresh_world (symbol_of_string "a/b")).2 "a/b" "x").2
            0 (.symbol (symbol_of_string "a/b"))).2 0 ⟨"", "x"⟩).1 = .ok none)
    ∧ (intern_var_of (intern_ns fresh_world (symbol_of_string "")).2 "" "x").1
        = .ok (.error "can't intern var; sym isn't qualified")
    ∧ (in_ns_fn (intern_var_of (intern_ns fresh_world (symbol_of_string "user")).2 "user" "x").2
          1 (.symbol (symbol_of_string "user"))).1 = .error .null_deref :=
  ⟨⟨rfl, rfl, rfl⟩, rfl, rfl⟩

/-- C10 (amended). In every world reachable from construction through `intern_ns`,
`intern_var` and `in-ns`, and for every unqualified symbol s: on a thread with a current
namespace, `find_var(s)` is the lookup of `qualify_symbol(s)` in the current namespace's var
table; and whenever the current namespace's own name symbol carries no namespace component,
`find_var(s)` returns the same result (the same var, not-found, or the same fault) and
leaves the same world as `qualify_symbol(s)` followed by `find_var` of its result. -/
theorem find_var_unqualified_refines (t : thread_id) (w : world) (tid : thread_id) (s : symbol)
    (hr : reachable t w) (hs : s.ns = "") :
    (∀ ts p cur, map_find w.ctx.thread_states tid = some ts →
        current_ns_of w.heap ts = .ok (p, cur) →
        qualify_symbol w tid s = (.ok ⟨cur.name.name, s.name⟩, w)
        ∧ find_var w tid s = (.ok (map_find cur.vars ⟨cur.name.name, s.name⟩), w))
    ∧ ((∀ ts p cur, map_find w.ctx.thread_states tid = some ts →
          current_ns_of w.heap ts = .ok (p, cur) → cur.name.ns = "") →
        find_var w tid s =
          match qualify_symbol w tid s with
          | (.ok q, w1) => find_var w1 tid q
          | (.error e, w1) => (.error e, w1)) := by
  refine ⟨fun ts p cur hts hcur =>
    ⟨qualify_symbol_unqualified w tid s ts p cur hs hts hcur,
     find_var_unqualified w tid s ts p cur hs hts hcur⟩, fun hbare => ?_⟩
  cases hts : map_find w.ctx.thread_states tid with
  | none =>
    simp [find_var, qualify_symbol, hs, get_thread_state, hts, map_emplace, current_ns_of]
  | some ts =>
    cases hcur : current_ns_of w.heap ts with
    | error e =>
      simp [find_var, qualify_symbol, hs, get_thread_state_found _ _ _ _ hts, hcur]
    | ok r =>
      obtain ⟨p, cur⟩ := r
      rw [qualify_symbol_unqualified w tid s ts p cur hs hts hcur,
        find_var_unqualified w tid s ts p cur hs hts hcur]
      show _ = find_var w tid ⟨cur.name.name, s.name⟩
      by_cases hc : cur.name.name = ""
      · rw [find_var_unqualified w tid ⟨cur.name.name, s.name⟩ ts p cur hc hts hcur]
      · have hreg := (reachable_ok t w hr).2.1 tid ts p cur hts hcur
        have hname : cur.name = ⟨"", cur.name.name⟩ := by
          have := hbare ts p cur hts hcur
          cases hcn : cur.name with
          | mk a b =>
            rw [hcn] at this
            simp only at this
            rw [this]
        rw [hname] at hreg
        obtain ⟨_, _, _, _, _, hbox⟩ := (current_ns_of_eq_ok _ _ _ _).mp hcur
        simp [find_var, hc, hreg, hbox]

theorem find_var_unqualified_refines_witness :
    find_var fresh_world 0 ⟨"", "in-ns"⟩ =
      match qualify_symbol fresh_world 0 ⟨"", "in-ns"⟩ with
      | (.ok q, w1) => find_var w1 0 q
      | (.error e, w1) => (.error e, w1) :=
  (find_var_unqualified_refines 0 fresh_world 0 ⟨"", "in-ns"⟩ reachable.construct rfl).2
    (fun ts p cur hts hcur => by
      have h1 : some (⟨some 0, some 1⟩ : thread_state) = some ts := hts
      cases h1
      have h2 : (Except.ok (0, ⟨⟨"", "clojure.core"⟩,
          [(⟨"clojure.core", "fresh-seq"⟩, 4), (⟨"clojure.core", "seq"⟩, 3),
           (⟨"clojure.core", "assert"⟩, 2), (⟨"clojure.core", "in-ns"⟩, 1),
           (⟨"clojure.core", "*ns*"⟩, 0)]⟩) : Except fault (ns_ptr × ns))
          = .ok (p, cur) := hcur
      cases h2
      rfl)

/-- C10 as stated fails. The world `world_in_ab` is reachable: construction, `intern_ns` of
b, `intern_var` of b/x (var 5), then `in-ns` of the qualified symbol a/b on the constructing
thread. There `find_var` of the unqualified x reports not-found, while `qualify_symbol`
turns x into b/x and `find_var` of b/x returns var 5. -/
theorem find_var_differs_from_qualified :
    reachable 0 world_in_ab
    ∧ (find_var world_in_ab 0 ⟨"", "x"⟩).1 = .ok none
    ∧ (qualify_symbol world_in_ab 0 ⟨"", "x"⟩).1 = .ok ⟨"b", "x"⟩
    ∧ (find_var (qualify_symbol world_in_ab 0 ⟨"", "x"⟩).2 0 ⟨"b", "x"⟩).1 = .ok (some 5) :=
  ⟨reachable.in_ns _ 0 _
      (reachable.intern_var _ _ (reachable.intern_ns _ _ reachable.construct)) rfl,
    rfl, rfl, rfl⟩

/-! ## Qualification -/

/-- Qualification changes at most the thread-state table: heap, namespace table and keyword
table are those of the call. -/
theorem qualify_symbol_frame (w : world) (tid : thread_id) (s : symbol) :
    (qualify_symbol w tid s).2.heap = w.heap
    ∧ (qualify_symbol w tid s).2.ctx.namespaces = w.ctx.namespaces
    ∧ (qualify_symbol w tid s).2.ctx.keywords = w.ctx.keywords := by
  by_cases hs : s.ns = ""
  · cases hts : map_find w.ctx.thread_states tid with
    | none =>
      simp [qualify_symbol, hs, get_thread_state, hts, map_emplace, current_ns_of]
    | some ts =>
      cases hcur : current_ns_of w.heap ts with
      | error e => simp [qualify_symbol, hs, get_thread_state_found _ _ _ _ hts, hcur]
      | ok r => simp [qualify_symbol, hs, get_thread_state_found _ _ _ _ hts, hcur]
  · simp [qualify_symbol, hs]

/-- C11. `qualify_symbol` returns a symbol with a non-empty namespace component unchanged,
in an unchanged world; it is idempotent (qualifying its result again gives that result and
changes nothing); for an unqualified symbol with name x, on a thread whose current namespace
is the box `cur`, it returns (c, x) with c the name of `cur`, whether or not any var or
namespace of that name exists; and it never changes the heap (so no var table), the
namespace table or the keyword table. -/
theorem qualify_symbol_spec (w : world) (tid : thread_id) (s : symbol) :
    (s.ns ≠ "" → qualify_symbol w tid s = (.ok s, w))
    ∧ (∀ q w1, qualify_symbol w tid s = (.ok q, w1) → qualify_symbol w1 tid q = (.ok q, w1))
    ∧ (s.ns = "" → ∀ ts p cur, map_find w.ctx.thread_states tid = some ts →
        current_ns_of w.heap ts = .ok (p, cur) →
        qualify_symbol w tid s = (.ok ⟨cur.name.name, s.name⟩, w))
    ∧ (qualify_symbol w tid s).2.heap = w.heap
    ∧ (qualify_symbol w tid s).2.ctx.namespaces = w.ctx.namespaces
    ∧ (qualify_symbol w tid s).2.ctx.keywords = w.ctx.keywords := by
  refine ⟨fun hs => by simp [qualify_symbol, hs], ?_,
    fun hs ts p cur hts hcur => qualify_symbol_unqualified w tid s ts p cur hs hts hcur,
    qualify_symbol_frame w tid s⟩
  intro q w1 h
  by_cases hs : s.ns = ""
  · cases hts : map_find w.ctx.thread_states tid with
    | none =>
      exfalso
      simp [qualify_symbol, hs, get_thread_state, hts, map_emplace, current_ns_of] at h
    | some ts =>
      cases hcur : current_ns_of w.heap ts with
      | error e =>
        exfalso
        simp [qualify_symbol, hs, get_thread_state_found _ _ _ _ hts, hcur] at h
      | ok r =>
        obtain ⟨p, cur⟩ := r
        rw [qualify_symbol_unqualified w tid s ts p cur hs hts hcur] at h
        simp only [Prod.mk.injEq, Except.ok.injEq] at h
        obtain ⟨rfl, rfl⟩ := h
        by_cases hc : cur.name.name = ""
        · exact qualify_symbol_unqualified w tid ⟨cur.name.name, s.name⟩ ts p cur hc hts hcur
        · simp [qualify_symbol, hc]
  · have h0 : qualify_symbol w tid s = (.ok s, w) := by simp [qualify_symbol, hs]
    rw [h0] at h
    simp only [Prod.mk.injEq, Except.ok.injEq] at h
    obtain ⟨rfl, rfl⟩ := h
    exact h0

/-! ## The freshly constructed registry -/

/-- C13. Construction of a registry on thread t succeeds, and afterwards on thread t: every
unqualified x qualifies to (clojure.core, x); the thread state's current-namespace var is
the var that the namespace registered as clojure.core holds under clojure.core/*ns*, named
so, owned by that namespace and with that namespace as its root; and `find_var` of
clojure.core/in-ns returns the var recorded as the thread state's in-ns, whose root is the
native `in-ns` function. -/
theorem context_new_spec (t : thread_id) :
    (context_new ⟨[], [], []⟩ t).1 = .ok ()
    ∧ (∀ x, qualify_symbol (context_new ⟨[], [], []⟩ t).2 t ⟨"", x⟩
        = (.ok ⟨"clojure.core", x⟩, (context_new ⟨[], [], []⟩ t).2))
    ∧ ∃ ts core core_ns ns_var v in_ns_var iv,
        map_find (context_new ⟨[], [], []⟩ t).2.ctx.thread_states t = some ts
        ∧ map_find (context_new ⟨[], [], []⟩ t).2.ctx.namespaces ⟨"", "clojure.core"⟩ = some core
        ∧ (context_new ⟨[], [], []⟩ t).2.heap.nss[core]? = some core_ns
        ∧ core_ns.name = ⟨"", "clojure.core"⟩
        ∧ ts.current_ns = some ns_var
        ∧ map_find core_ns.vars ⟨"clojure.core", "*ns*"⟩ = some ns_var
        ∧ (context_new ⟨[], [], []⟩ t).2.heap.vars[ns_var]? = some v
        ∧ v.name = ⟨"clojure.core", "*ns*"⟩ ∧ v.n = core ∧ v.root = some (.ns core)
        ∧ find_var (context_new ⟨[], [], []⟩ t).2 t ⟨"clojure.core", "in-ns"⟩
            = (.ok (some in_ns_var), (context_new ⟨[], [], []⟩ t).2)
        ∧ ts.in_ns = some in_ns_var
        ∧ (context_new ⟨[], [], []⟩ t).2.heap.vars[in_ns_var]? = some iv
        ∧ iv.root = some (.native_function_wrapper .in_ns) := by
  rw [context_new_eq]
  have hts : map_find [(t, (⟨some 0, some 1⟩ : thread_state))] t = some ⟨some 0, some 1⟩ :=
    map_find_cons_self _ _ _
  refine ⟨rfl, fun x => ?_, ⟨some 0, some 1⟩, 0, _, 0, _, 1, _, hts, rfl, rfl, rfl, rfl, rfl,
    rfl, rfl, rfl, rfl, rfl, rfl, rfl, rfl⟩
  have hcur : current_ns_of fresh_world.heap ⟨some 0, some 1⟩
      = .ok (0, ⟨⟨"", "clojure.core"⟩,
          [(⟨"clojure.core", "fresh-seq"⟩, 4), (⟨"clojure.core", "seq"⟩, 3),
           (⟨"clojure.core", "assert"⟩, 2), (⟨"clojure.core", "in-ns"⟩, 1),
           (⟨"clojure.core", "*ns*"⟩, 0)]⟩) := rfl
  exact qualify_symbol_unqualified
    ({ heap := fresh_world.heap,
       ctx := { fresh_world.ctx with thread_states := [(t, ⟨some 0, some 1⟩)] } } : world)
    t ⟨"", x⟩ ⟨some 0, some 1⟩ 0 _ rfl hts hcur

/-! ## Thread-local current namespace -/

/-- The current namespace of a thread whose current-namespace var and namespace box are kept. -/
theorem current_ns_of_kept (h h1 : heap) (ts : thread_state) (vp : var_ptr) (p : ns_ptr)
    (cur : ns) (hvp : ts.current_ns = some vp) (hvars : h1.vars[vp]? = h.vars[vp]?)
    (hnss : ∀ (p1 : ns_ptr) (n1 : ns), h.nss[p1]? = some n1 → h1.nss[p1]? = some n1)
    (hcur : current_ns_of h ts = .ok (p, cur)) : current_ns_of h1 ts = .ok (p, cur) := by
  obtain ⟨vp0, v, hvp0, hv, hroot, hn⟩ := (current_ns_of_eq_ok _ _ _ _).mp hcur
  rw [hvp] at hvp0
  cases hvp0
  exact (current_ns_of_eq_ok _ _ _ _).mpr ⟨vp, v, hvp, by rw [hvars]; exact hv, hroot, hnss _ _ hn⟩

theorem digitChar_isDigit (d : Nat) (h : d < 10) : (Nat.digitChar d).isDigit = true := by
  interval_cases d <;> rfl

theorem digitChar_injective (a b : Nat) (ha : a < 10) (hb : b < 10)
    (h : Nat.digitChar a = Nat.digitChar b) : a = b := by
  interval_cases a <;> interval_cases b <;> first | rfl | (exfalso; revert h; decide)

/-- The digits that core's printing produces, in terms of `Nat.digits`. -/
theorem toDigitsCore_eq (fuel : Nat) : ∀ (n : Nat) (ds : List Char), n < fuel →
    Nat.toDigitsCore 10 fuel n ds
      = (if n = 0 then ['0'] else (Nat.digits 10 n).reverse.map Nat.digitChar) ++ ds := by
  induction fuel with
  | zero => intro n ds h; exact absurd h (Nat.not_lt_zero _)
  | succ fuel ih =>
    intro n ds h
    simp only [Nat.toDigitsCore]
    by_cases hn' : n / 10 = 0
    · rw [if_pos hn']
      by_cases hn : n = 0
      · subst hn
        rfl
      · have hlt : n < 10 := by omega
        rw [if_neg hn, Nat.digits_of_lt 10 n hn hlt, Nat.mod_eq_of_lt hlt]
        rfl
    · rw [if_neg hn']
      have hn : n ≠ 0 := by
        intro h0
        subst h0
        exact hn' rfl
      have hlt : n / 10 < fuel := by omega
      rw [ih (n / 10) _ hlt, if_neg hn', if_neg hn]
      have hd : Nat.digits 10 n = (n % 10) :: Nat.digits 10 (n / 10) :=
        Nat.digits_def' (by decide) (Nat.pos_of_ne_zero hn)
      rw [hd]
      simp

theorem std_to_string_data (n : Nat) :
    (std_to_string n).data
      = if n = 0 then ['0'] else (Nat.digits 10 n).reverse.map Nat.digitChar := by
  show Nat.toDigitsCore 10 (n + 1) n [] = _
  rw [toDigitsCore_eq (n + 1) n [] (Nat.lt_succ_self n), List.append_nil]

theorem std_to_string_all_digits (n : Nat) :
    ∀ c ∈ (std_to_string n).data, c.isDigit = true := by
  intro c hc
  rw [std_to_string_data] at hc
  by_cases hn : n = 0
  · rw [if_pos hn] at hc
    simp only [List.mem_singleton] at hc
    subst hc
    rfl
  · rw [if_neg hn] at hc
    simp only [List.mem_map, List.mem_reverse] at hc
    obtain ⟨d, hd, rfl⟩ := hc
    exact digitChar_isDigit d (Nat.digits_lt_base (by decide) hd)

theorem std_to_string_injective (a b : Nat) (h : std_to_string a = std_to_string b) :
    a = b := by
  have hd : (std_to_string a).data = (std_to_string b).data := by rw [h]
  rw [std_to_string_data, std_to_string_data] at hd
  have hmap : ∀ (l1 l2 : List Nat), (∀ d ∈ l1, d < 10) → (∀ d ∈ l2, d < 10) →
      l1.map Nat.digitChar = l2.map Nat.digitChar → l1 = l2 := by
    intro l1
    induction l1 with
    | nil => intro l2 _ _ h; cases l2 with
      | nil => rfl
      | cons _ _ => simp at h
    | cons x l1 ih =>
      intro l2 h1 h2 h
      cases l2 with
      | nil => simp at h
      | cons y l2 =>
        simp only [List.map_cons, List.cons.injEq] at h
        have hx := digitChar_injective x y (h1 x (List.mem_cons_self _ _))
          (h2 y (List.mem_cons_self _ _)) h.1
        rw [hx, ih l2 (fun d hd => h1 d (List.mem_cons_of_mem _ hd))
          (fun d hd => h2 d (List.mem_cons_of_mem _ hd)) h.2]
  have hlt : ∀ m, ∀ d ∈ (Nat.digits 10 m).reverse, d < 10 := fun m d hd =>
    Nat.digits_lt_base (by decide) (List.mem_reverse.mp hd)
  have hne : ∀ m, m ≠ 0 → (Nat.digits 10 m).reverse.map Nat.digitChar ≠ ['0'] := by
    intro m hm he
    have h0 : (Nat.digits 10 m).reverse = [0] := hmap _ [0] (hlt m) (by simp) he
    have h1 : Nat.digits 10 m = [0] := by
      have := congrArg List.reverse h0
      simpa using this
    have hlast := Nat.getLast_digit_ne_zero 10 hm
    simp [h1] at hlast
  by_cases ha : a = 0
  · by_cases hb : b = 0
    · rw [ha, hb]
    · rw [if_pos ha, if_neg hb] at hd
      exact absurd hd.symm (hne b hb)
  · by_cases hb : b = 0
    · rw [if_neg ha, if_pos hb] at hd
      exact absurd hd (hne a ha)
    · rw [if_neg ha, if_neg hb] at hd
      have := hmap _ _ (hlt a) (hlt b) hd
      exact Nat.digits.injective 10 (List.reverse_injective this)

theorem takeWhile_digit_reverse (s : String) (h : ends_in_digit s = false) :
    s.data.reverse.takeWhile Char.isDigit = [] := by
  unfold ends_in_digit at h
  cases hr : s.data.reverse with
  | nil => rfl
  | cons c t =>
    have hl : s.data.getLast? = some c := by
      rw [← List.head?_reverse, hr]
      rfl
    rw [hl] at h
    simp only at h
    simp [List.takeWhile, h]

/-- A text that does not end in a digit, followed by a number: the number can be read back. -/
theorem append_std_to_string_inj (p1 p2 : String) (a b : Nat)
    (h1 : ends_in_digit p1 = false) (h2 : ends_in_digit p2 = false)
    (h : p1 ++ std_to_string a = p2 ++ std_to_string b) : a = b := by
  have hd : (p1 ++ std_to_string a).data = (p2 ++ std_to_string b).data := by rw [h]
  rw [String.data_append, String.data_append] at hd
  have hr := congrArg (fun l => (l.reverse).takeWhile Char.isDigit) hd
  simp only [List.reverse_append] at hr
  rw [List.takeWhile_append_of_pos
      (fun c hc => std_to_string_all_digits a c (List.mem_reverse.mp hc)),
    List.takeWhile_append_of_pos
      (fun c hc => std_to_string_all_digits b c (List.mem_reverse.mp hc)),
    takeWhile_digit_reverse p1 h1, takeWhile_digit_reverse p2 h2,
    List.append_nil, List.append_nil] at hr
  apply std_to_string_injective
  have := List.reverse_injective hr
  cases hsa : std_to_string a
  cases hsb : std_to_string b
  rw [hsa, hsb] at this
  simp only at this
  rw [this]

/-- The string returned by the k-th call of a run. -/
theorem unique_strings_getElem (ps : List string_view) :
    ∀ (index k : Nat), index < size_t_range →
    (unique_strings index ps)[k]?
      = ps[k]?.map (fun p => p.c_str ++ std_to_string ((index + k) % size_t_range)) := by
  induction ps with
  | nil => intro index k _; simp [unique_strings]
  | cons p ps ih =>
    intro index k hi
    cases k with
    | zero => simp [unique_strings, unique_string, Nat.mod_eq_of_lt hi]
    | succ k =>
      have hpos : 0 < size_t_range := by unfold size_t_range; positivity
      simp only [unique_strings, unique_string, List.getElem?_cons_succ]
      rw [ih ((index + 1) % size_t_range) k (Nat.mod_lt _ hpos)]
      congr 2
      funext q
      congr 2
      rw [Nat.mod_add_mod]
      congr 1
      omega

theorem unique_strings_length (ps : List string_view) : ∀ index : Nat,
    (unique_strings index ps).length = ps.length := by
  induction ps with
  | nil => intro index; rfl
  | cons p ps ih => intro index; simp [unique_strings, ih]

/-- C18 (amended). For every N up to 2^64 (the range of the counter) and every run of N
calls of `unique_string` on the process-wide counter, from any registry or clone, each with
the default prefix "gen" or a caller-supplied prefix whose text as the code reads it (the
characters from `prefix.data()` up to the first NUL) does not end in a decimal digit, the N
returned strings are pairwise distinct. -/
theorem unique_strings_distinct (index : Nat) (ps : List string_view)
    (hindex : index < size_t_range) (hlen : ps.length ≤ size_t_range)
    (hps : ∀ p ∈ ps, ends_in_digit p.c_str = false) :
    (unique_strings index ps).Nodup := by
  rw [List.nodup_iff_getElem?_ne_getElem?]
  intro i j hij hj
  rw [unique_strings_length] at hj
  rw [unique_strings_getElem ps index i hindex, unique_strings_getElem ps index j hindex]
  have hi : i < ps.length := Nat.lt_trans hij hj
  rw [List.getElem?_eq_getElem hi, List.getElem?_eq_getElem hj]
  simp only [Option.map_some', ne_eq, Option.some.injEq]
  intro he
  have hmod := append_std_to_string_inj _ _ _ _ (hps _ (List.getElem_mem _))
    (hps _ (List.getElem_mem _)) he
  have hji : (j - i) % size_t_range = 0 := by
    have h1 : index + j = (index + i) + (j - i) := by omega
    have h2 : ((index + i) + (j - i)) % size_t_range = (index + i) % size_t_range := by
      rw [← h1]; exact hmod.symm
    have h3 := (Nat.ModEq.add_left_cancel' (index + i)
      (show (index + i + (j - i)) ≡ (index + i + 0) [MOD size_t_range] from by
        rw [Nat.add_zero]; exact h2))
    exact h3
  have hlt : j - i < size_t_range := by omega
  rw [Nat.mod_eq_of_lt hlt] at hji
  omega

theorem unique_strings_distinct_witness :
    (unique_strings 1 [⟨"gen", 3⟩, ⟨"gen", 3⟩, ⟨"x", 1⟩, ⟨"gensym", 3⟩]).Nodup :=
  unique_strings_distinct 1 [⟨"gen", 3⟩, ⟨"gen", 3⟩, ⟨"x", 1⟩, ⟨"gensym", 3⟩]
    (by decide) (by decide) (by decide)

/-- C18 as stated fails. Eleven calls from the initial counter value 1, the first with the
prefix "a1" and the last with the prefix "a", return "a11" twice. The same happens when the
first prefix is the four characters a, 1, NUL, z, which do not end in a digit: the code
reads the prefix up to the NUL. And a run of 2^64 + 1 calls with the default prefix returns
"gen1" first and last, because the counter has wrapped. -/
theorem unique_strings_collide :
    ¬ (unique_strings 1
        [⟨"a1", 2⟩, ⟨"gen", 3⟩, ⟨"gen", 3⟩, ⟨"gen", 3⟩, ⟨"gen", 3⟩, ⟨"gen", 3⟩, ⟨"gen", 3⟩,
         ⟨"gen", 3⟩, ⟨"gen", 3⟩, ⟨"gen", 3⟩, ⟨"a", 1⟩]).Nodup
    ∧ ¬ (unique_strings 1
        [⟨String.mk ['a', '1', Char.ofNat 0, 'z'], 4⟩, ⟨"gen", 3⟩, ⟨"gen", 3⟩, ⟨"gen", 3⟩,
         ⟨"gen", 3⟩, ⟨"gen", 3⟩, ⟨"gen", 3⟩, ⟨"gen", 3⟩, ⟨"gen", 3⟩, ⟨"gen", 3⟩,
         ⟨"a", 1⟩]).Nodup
    ∧ ¬ (unique_strings 1
        (List.replicate (size_t_range + 1) (string_view.of_literal "gen"))).Nodup := by
  refine ⟨by decide, by decide, ?_⟩
  rw [List.nodup_iff_getElem?_ne_getElem?]
  intro h
  have hpos : 0 < size_t_range := by unfold size_t_range; positivity
  have h1 : (1 : Nat) < size_t_range := by unfold size_t_range; norm_num
  apply h 0 size_t_range hpos (by rw [unique_strings_length, List.length_replicate]; omega)
  rw [unique_strings_getElem _ 1 0 h1, unique_strings_getElem _ 1 size_t_range h1,
    List.getElem?_replicate_of_lt (by omega), List.getElem?_replicate_of_lt (by omega)]
  simp

/-! ## Macro expansion -/

/-- C14. `macroexpand1` returns its argument itself (the same object) whenever the form is
not a list, or is an empty list, or has a first element that is not a symbol, or has a head
symbol for which `find_var` reports not-found, or has a head var without metadata, or has a
head var whose metadata has no entry under the keyword :macro or a nil or false one. -/
theorem macroexpand1_returns_argument (apply_to : apply_fn) (st : machine) (tid : thread_id)
    (o : object)
    (h : (∀ lp, o ≠ .list lp)
      ∨ (∃ lp, o = .list lp ∧ st.lists[lp]? = some [])
      ∨ (∃ lp first rest, o = .list lp ∧ st.lists[lp]? = some (first :: rest)
          ∧ ∀ s, first ≠ .symbol s)
      ∨ (∃ lp s rest w1, o = .list lp ∧ st.lists[lp]? = some (.symbol s :: rest)
          ∧ find_var st.w tid s = (.ok none, w1))
      ∨ (∃ lp s rest w1 vp v, o = .list lp ∧ st.lists[lp]? = some (.symbol s :: rest)
          ∧ find_var st.w tid s = (.ok (some vp), w1) ∧ w1.heap.vars[vp]? = some v
          ∧ v.meta = none)
      ∨ (∃ lp s rest w1 vp v mt kw w2, o = .list lp
          ∧ st.lists[lp]? = some (.symbol s :: rest)
          ∧ find_var st.w tid s = (.ok (some vp), w1) ∧ w1.heap.vars[vp]? = some v
          ∧ v.meta = some mt
          ∧ intern_keyword w1 tid "" "macro" true = (.ok kw, w2)
          ∧ (map_find mt (.keyword kw) = none
            ∨ ∃ e, map_find mt (.keyword kw) = some e ∧ truthy e = false))) :
    (macroexpand1 apply_to st tid o).1 = .ok o
    ∧ (macroexpand1 apply_to st tid o).2.lists = st.lists := by
  rcases h with h | ⟨lp, rfl, hl⟩ | ⟨lp, first, rest, rfl, hl, hf⟩
    | ⟨lp, s, rest, w1, rfl, hl, hfv⟩ | ⟨lp, s, rest, w1, vp, v, rfl, hl, hfv, hv, hm⟩
    | ⟨lp, s, rest, w1, vp, v, mt, kw, w2, rfl, hl, hfv, hv, hm, hk, hmac⟩
  · cases o with
    | list lp => exact absurd rfl (h lp)
    | _ => exact ⟨rfl, rfl⟩
  · simp [macroexpand1, hl]
  · cases first with
    | symbol s => exact absurd rfl (hf s)
    | _ => simp [macroexpand1, hl]
  · simp [macroexpand1, hl, hfv]
  · simp [macroexpand1, hl, hfv, hv, hm]
  · rcases hmac with hnone | ⟨e, he, hte⟩
    · simp [macroexpand1, hl, hfv, hv, hm, hk, hnone]
    · simp [macroexpand1, hl, hfv, hv, hm, hk, he, hte]

theorem macroexpand1_returns_argument_witness :
    (macroexpand1 (apply_constant (.list 1)) machine_macros 0 (.list 2)).1 = .ok (.list 2)
    ∧ (macroexpand1 (apply_constant (.list 1)) machine_macros 0 (.list 2)).2.lists
        = machine_macros.lists :=
  macroexpand1_returns_argument (apply_constant (.list 1)) machine_macros 0 (.list 2)
    (Or.inr (Or.inr (Or.inr (Or.inr (Or.inl
      ⟨2, ⟨"", "+"⟩, [.integer 1, .integer 2], world_macros, 6,
        ⟨0, ⟨"clojure.core", "+"⟩, none, none⟩, rfl, rfl, rfl, rfl, rfl⟩)))))

/-- C15. For every non-empty list form (h a1 ... an) whose head symbol h resolves through
`find_var` to a var whose metadata has a truthy entry under the keyword :macro,
`macroexpand1` is exactly one application of the var's root value to a new list object
holding (form, nil, a1, ..., an) in that order: it returns what that application returns
and leaves the machine that application leaves; the result is not expanded further. -/
theorem macroexpand1_applies_macro (apply_to : apply_fn) (st : machine) (tid : thread_id)
    (lp : list_ptr) (s : symbol) (rest : List object) (w1 w2 : world) (vp : var_ptr) (v : var)
    (mt : List (object × object)) (kw : keyword_ptr) (e : object)
    (hl : st.lists[lp]? = some (.symbol s :: rest))
    (hfv : find_var st.w tid s = (.ok (some vp), w1)) (hv : w1.heap.vars[vp]? = some v)
    (hm : v.meta = some mt) (hk : intern_keyword w1 tid "" "macro" true = (.ok kw, w2))
    (he : map_find mt (.keyword kw) = some e) (hte : truthy e = true) :
    macroexpand1 apply_to st tid (.list lp)
      = apply_to { w := w2, lists := st.lists ++ [.list lp :: .nil :: rest] } tid v.root
          (.list st.lists.length) := by
  simp [macroexpand1, hl, hfv, hv, hm, hk, he, hte]

theorem macroexpand1_applies_macro_witness :
    macroexpand1 (apply_constant (.list 1)) machine_macros 0 (.list 0)
      = apply_constant (.list 1)
          { w := world_macros,
            lists := machine_macros.lists ++ [[.list 0, .nil, .integer 1, .integer 2]] }
          0 (some (.function 0)) (.list machine_macros.lists.length) :=
  macroexpand1_applies_macro (apply_constant (.list 1)) machine_macros 0 0 ⟨"", "foo"⟩
    [.integer 1, .integer 2] world_macros world_macros 5
    ⟨0, ⟨"clojure.core", "foo"⟩, some (.function 0), some [(.keyword 0, .boolean true)]⟩
    [(.keyword 0, .boolean true)] 0 (.boolean true) rfl rfl rfl rfl rfl rfl rfl

/-- C16. `macroexpand` is the fixed-point iteration of `macroexpand1`: for every form o and
every n such that the n-fold iterate f of `macroexpand1` on o exists, `macroexpand1` of f
returns f itself, and no earlier iterate is returned unchanged by `macroexpand1`,
`macroexpand` of o terminates (any bound above n on the number of calls is enough), returns
f in the machine the last step left, and makes exactly n + 1 calls of `macroexpand1`; for
n = 0, a fixed point, that is the form itself after exactly one call. -/
theorem macroexpand_fixed_point (apply_to : apply_fn) (tid : thread_id) (n : Nat) :
    ∀ (st stn st1 : machine) (o f : object) (fuel : Nat),
    macroexpand1_iterate apply_to n st tid o = some (f, stn) →
    macroexpand1 apply_to stn tid f = (.ok f, st1) →
    (∀ k, k < n → ∀ g stk, macroexpand1_iterate apply_to k st tid o = some (g, stk) →
        (macroexpand1 apply_to stk tid g).1 ≠ .ok g) →
    n < fuel →
    macroexpand apply_to fuel st tid o = some (.ok f, st1, n + 1) := by
  induction n with
  | zero =>
    intro st stn st1 o f fuel hit hfix _ hfuel
    simp only [macroexpand1_iterate, Option.some.injEq, Prod.mk.injEq] at hit
    obtain ⟨rfl, rfl⟩ := hit
    obtain ⟨fuel, rfl⟩ : ∃ m, fuel = m + 1 := ⟨fuel - 1, by omega⟩
    simp [macroexpand, hfix]
  | succ n ih =>
    intro st stn st1 o f fuel hit hfix hfirst hfuel
    obtain ⟨fuel, rfl⟩ : ∃ m, fuel = m + 1 := ⟨fuel - 1, by omega⟩
    have h0 := hfirst 0 (Nat.succ_pos n) o st rfl
    cases hstep : macroexpand1 apply_to st tid o with
    | mk r sta =>
      cases r with
      | error e => simp [macroexpand1_iterate, hstep] at hit
      | ok expanded =>
        simp only [macroexpand1_iterate, hstep] at hit
        have hne : expanded ≠ o := by
          intro he
          apply h0
          rw [hstep, he]
        have hrec := ih sta stn st1 expanded f fuel hit hfix
          (fun k hk g stk hg => hfirst (k + 1) (Nat.succ_lt_succ hk) g stk
            (by simp only [macroexpand1_iterate, hstep]; exact hg))
          (Nat.lt_of_succ_lt_succ hfuel)
        simp [macroexpand, hstep, hne, hrec]

theorem macroexpand_fixed_point_witness :
    macroexpand (apply_constant (.list 1)) 2 machine_macros 0 (.list 0)
      = some (.ok (.list 1),
          { w := world_macros,
            lists := machine_macros.lists ++ [[.list 0, .nil, .integer 1, .integer 2]] },
          1 + 1) :=
  macroexpand_fixed_point (apply_constant (.list 1)) 0 1 machine_macros _ _ (.list 0) (.list 1)
    2 rfl rfl
    (fun k hk g stk hg => by
      have hk0 : k = 0 := by omega
      subst hk0
      simp only [macroexpand1_iterate, Option.some.injEq, Prod.mk.injEq] at hg
      obtain ⟨rfl, rfl⟩ := hg
      intro hbad
      have hval : (macroexpand1 (apply_constant (.list 1)) machine_macros 0 (.list 0)).1
          = .ok (.list 1) := rfl
      rw [hval] at hbad
      cases hbad)
    (by decide)

/-! ## Cloning -/

/-- C17, evaluated at a failing input. The registry `world_x` holds the var clojure.core/x
(var 5, null root) and is cloned. The clone's thread states are copies of the original's, so
on thread 0 the clone's `find_var` of the unqualified x follows the original's
current-namespace var into the original's namespace and returns var 5, the original's own
var for clojure.core/x, although the clone's table holds a var of its own (var 6). Setting
the root of the var the clone returned changes the root of the original's var. This holds
whatever owner the clone of a var records. -/
theorem clone_set_root_reaches_original (co : clone_owner) :
    context_copy co world_x = .ok (world_x_clone co)
    ∧ (find_var (world_x_clone co) 0 ⟨"", "x"⟩).1 = .ok (some 5)
    ∧ (find_var (world_x_clone co) 0 ⟨"clojure.core", "x"⟩).1 = .ok (some 6)
    ∧ (find_var world_x 0 ⟨"clojure.core", "x"⟩).1 = .ok (some 5)
    ∧ (world_x_clone co).heap.vars[5]?.map var.root = some none
    ∧ ∃ h, (world_x_clone co).heap.set_root 5 (some (.integer 42)) = some h
        ∧ (find_var { heap := h, ctx := world_x.ctx } 0 ⟨"clojure.core", "x"⟩).1 = .ok (some 5)
        ∧ h.vars[5]?.map var.root = some (some (.integer 42)) :=
  ⟨rfl, rfl, rfl, rfl, rfl, _, rfl, rfl, rfl⟩

/-- C20, evaluated at a failing input. A fresh registry is cloned. On thread 0 the clone's
current namespace is namespace box 0, which the original's table holds as clojure.core; the
clone's own table holds box 1. The clone's `find_var` of the unqualified in-ns returns var
1, the original's var (the clone's own is var 8). A call of `in-ns` with the symbol user on
the clone's tables writes the root of the original's current-namespace var, after which
the original registry qualifies x to (user, x); run on the original's tables, to which the
`in-ns` function stays bound, the call does the same. This holds whatever owner the clone
of a var records. -/
theorem clone_resolves_against_original (co : clone_owner) :
    context_copy co fresh_world = .ok (fresh_clone co)
    ∧ map_find (fresh_clone co).ctx.thread_states 0 = some ⟨some 0, some 1⟩
    ∧ (∃ n, current_ns_of (fresh_clone co).heap ⟨some 0, some 1⟩ = .ok (0, n))
    ∧ map_find fresh_world.ctx.namespaces ⟨"", "clojure.core"⟩ = some 0
    ∧ map_find (fresh_clone co).ctx.namespaces ⟨"", "clojure.core"⟩ = some 1
    ∧ (find_var (fresh_clone co) 0 ⟨"", "in-ns"⟩).1 = .ok (some 1)
    ∧ (find_var (fresh_clone co) 0 ⟨"clojure.core", "in-ns"⟩).1 = .ok (some 8)
    ∧ (qualify_symbol { heap := (fresh_clone co).heap, ctx := fresh_world.ctx } 0 ⟨"", "x"⟩).1
        = .ok ⟨"clojure.core", "x"⟩
    ∧ (in_ns_fn (fresh_clone co) 0 (.symbol ⟨"", "user"⟩)).1 = .ok .nil
    ∧ (qualify_symbol
        { heap := (in_ns_fn (fresh_clone co) 0 (.symbol ⟨"", "user"⟩)).2.heap,
          ctx := fresh_world.ctx }
        0 ⟨"", "x"⟩).1 = .ok ⟨"user", "x"⟩
    ∧ (in_ns_fn { heap := (fresh_clone co).heap, ctx := fresh_world.ctx } 0
        (.symbol ⟨"", "user"⟩)).1 = .ok .nil
    ∧ (qualify_symbol
        (in_ns_fn { heap := (fresh_clone co).heap, ctx := fresh_world.ctx } 0
          (.symbol ⟨"", "user"⟩)).2 0 ⟨"", "x"⟩).1 = .ok ⟨"user", "x"⟩ :=
  ⟨rfl, rfl, ⟨_, rfl⟩, rfl, rfl, rfl, rfl, rfl, rfl, rfl, rfl, rfl⟩

/-! ## The registry invariant -/

theorem map_find_mem {κ ν : Type} [DecidableEq κ] (m : List (κ × ν)) (k : κ) (v : ν)
    (h : map_find m k = some v) : (k, v) ∈ m := by
  induction m with
  | nil => simp [map_find] at h
  | cons e m ih =>
    obtain ⟨k1, v1⟩ := e
    by_cases hk : k1 = k
    · simp only [map_find, hk, if_true, Option.some.injEq] at h
      rw [hk, h]
      exact List.mem_cons_self _ _
    · simp only [map_find, hk, if_false] at h
      exact List.mem_cons_of_mem _ (ih h)

theorem heap_le_refl (h : heap) : heap_le h h :=
  ⟨fun _ _ hn => hn, fun _ v hv => ⟨v, hv, rfl, rfl⟩⟩

theorem heap_le_trans (h1 h2 h3 : heap) (h12 : heap_le h1 h2) (h23 : heap_le h2 h3) :
    heap_le h1 h3 := by
  refine ⟨fun p n hn => h23.1 p n (h12.1 p n hn), fun vp v hv => ?_⟩
  obtain ⟨v2, hv2, hname2, hn2⟩ := h12.2 vp v hv
  obtain ⟨v3, hv3, hname3, hn3⟩ := h23.2 vp v2 hv2
  exact ⟨v3, hv3, hname3.trans hname2, hn3.trans hn2⟩

theorem table_ok_mono (h h1 : heap) (tbl : List (symbol × ns_ptr)) (hle : heap_le h h1)
    (hok : table_ok h tbl) : table_ok h1 tbl := by
  intro K p hmem
  obtain ⟨n, hn, hname, hvars⟩ := hok K p hmem
  refine ⟨n, hle.1 p n hn, hname, fun k vp hk => ?_⟩
  obtain ⟨hsym, v, hv, hvname, hvn⟩ := hvars k vp hk
  obtain ⟨v1, hv1, hname1, hn1⟩ := hle.2 vp v hv
  exact ⟨hsym, v1, hv1, hname1.trans hvname, hn1.trans hvn⟩

theorem heap_le_append_ns (h : heap) (n : ns) : heap_le h { h with nss := h.nss ++ [n] } := by
  refine ⟨fun p n0 hn => ?_, fun _ v hv => ⟨v, hv, rfl, rfl⟩⟩
  show (h.nss ++ [n])[p]? = some n0
  rw [List.getElem?_append_left (lt_length_of_get hn)]
  exact hn

theorem heap_le_append_var (h : heap) (v : var) : heap_le h { h with vars := h.vars ++ [v] } := by
  refine ⟨fun _ _ hn => hn, fun vp v0 hv => ⟨v0, ?_, rfl, rfl⟩⟩
  show (h.vars ++ [v])[vp]? = some v0
  rw [List.getElem?_append_left (lt_length_of_get hv)]
  exact hv

theorem heap_le_set_root (h h1 : heap) (vp : var_ptr) (o : Option object)
    (hs : h.set_root vp o = some h1) : heap_le h h1 := by
  unfold heap.set_root at hs
  cases hv : h.vars[vp]? with
  | none => rw [hv] at hs; cases hs
  | some v =>
    rw [hv] at hs
    simp only [Option.some.injEq] at hs
    subst hs
    refine ⟨fun _ _ hn => hn, fun vp1 v1 hv1 => ?_⟩
    by_cases hp : vp = vp1
    · subst hp
      rw [hv] at hv1
      cases hv1
      exact ⟨_, List.getElem?_set_self (lt_length_of_get hv), rfl, rfl⟩
    · exact ⟨v1, by show (h.vars.set vp _)[vp1]? = _; rw [List.getElem?_set_ne hp]; exact hv1,
        rfl, rfl⟩

theorem registry_ok_intern_ns (w : world) (sym : symbol) (h : registry_ok w) :
    registry_ok (intern_ns w sym).2 := by
  cases hf : map_find w.ctx.namespaces sym with
  | some p => rw [intern_ns_found w sym p hf]; exact h
  | none =>
    rw [intern_ns_fresh w sym hf]
    intro K p hmem
    have hmem1 : (K, p) = (sym, w.heap.nss.length) ∨ (K, p) ∈ w.ctx.namespaces :=
      List.mem_cons.mp hmem
    rcases hmem1 with he | hold
    · cases he
      refine ⟨⟨sym, []⟩, List.getElem?_concat_length _ _, rfl, fun k vp hk => ?_⟩
      cases hk
    · exact table_ok_mono w.heap _ _ (heap_le_append_ns w.heap _) h K p hold

/-- Var interning either leaves the world alone or creates one var in the namespace it
found for the symbol. -/
theorem intern_var_cases (w : world) (q : symbol) :
    (intern_var w q).2 = w ∨
    ∃ np n, map_find w.ctx.namespaces (symbol_of_string q.ns) = some np
      ∧ w.heap.nss[np]? = some n ∧
      (intern_var w q).2 = { w with heap :=
            { nss := w.heap.nss.set np { n with vars := (q, w.heap.vars.length) :: n.vars },
              vars := w.heap.vars ++ [⟨np, q, none, none⟩],
              keywords := w.heap.keywords } } := by
  by_cases hq : q.ns = ""
  · left; simp [intern_var, hq]
  · cases hns : map_find w.ctx.namespaces (symbol_of_string q.ns) with
    | none => left; simp [intern_var, hq, hns]
    | some np =>
      cases hbox : w.heap.nss[np]? with
      | none => left; simp [intern_var, hq, hns, hbox]
      | some n =>
        cases hv : map_find n.vars q with
        | some v => left; rw [intern_var_found w q np n v hq hns hbox hv]
        | none =>
          right
          exact ⟨np, n, rfl, hbox, by rw [intern_var_fresh w q np n hq hns hbox hv]⟩

theorem registry_ok_intern_var (w : world) (q : symbol) (h : registry_ok w) :
    registry_ok (intern_var w q).2 := by
  rcases intern_var_cases w q with hw | ⟨np, n, hns, hbox, hw⟩
  · rw [hw]; exact h
  · rw [hw]
    have hnp := map_find_mem _ _ _ hns
    obtain ⟨n0, hn0, hname0, _⟩ := h _ _ hnp
    rw [hbox] at hn0
    cases hn0
    intro K p hmem
    obtain ⟨n1, hn1, hname1, hvars1⟩ := h K p hmem
    by_cases hp : np = p
    · subst hp
      rw [hbox] at hn1
      cases hn1
      refine ⟨_, List.getElem?_set_self (lt_length_of_get hbox), hname1, fun k vp hk => ?_⟩
      have hk1 : (k, vp) = (q, w.heap.vars.length) ∨ (k, vp) ∈ n.vars := List.mem_cons.mp hk
      rcases hk1 with he | hold
      · cases he
        exact ⟨hname0.symm, _, List.getElem?_concat_length _ _, rfl, rfl⟩
      · obtain ⟨hsym, v, hv, hvname, hvn⟩ := hvars1 k vp hold
        refine ⟨hsym, v, ?_, hvname, hvn⟩
        show (w.heap.vars ++ _)[vp]? = some v
        rw [List.getElem?_append_left (lt_length_of_get hv)]
        exact hv
    · refine ⟨n1, by show (w.heap.nss.set np _)[p]? = _; rw [List.getElem?_set_ne hp]; exact hn1,
        hname1, fun k vp hk => ?_⟩
      obtain ⟨hsym, v, hv, hvname, hvn⟩ := hvars1 k vp hk
      refine ⟨hsym, v, ?_, hvname, hvn⟩
      show (w.heap.vars ++ _)[vp]? = some v
      rw [List.getElem?_append_left (lt_length_of_get hv)]
      exact hv

theorem get_thread_state_namespaces (c : context) (tid : thread_id) (init : Option thread_state) :
    (get_thread_state c tid init).2.namespaces = c.namespaces := by
  cases hts : map_find c.thread_states tid with
  | none => simp [get_thread_state, hts]
  | some ts => simp [get_thread_state, hts]

/-- What `in-ns` can change, whether it returns or ends in a fault: beyond the interning of
the namespace, only thread states and var roots. -/
theorem in_ns_fn_frame (w : world) (tid : thread_id) (o : object) :
    (in_ns_fn w tid o).2 = w ∨
    ∃ s, (in_ns_fn w tid o).2.ctx.namespaces = (intern_ns w s).2.ctx.namespaces
      ∧ heap_le (intern_ns w s).2.heap (in_ns_fn w tid o).2.heap := by
  cases o with
  | symbol s =>
    right
    refine ⟨s, ?_⟩
    simp only [in_ns_fn]
    cases hcur : (get_thread_state (intern_ns w s).2.ctx tid none).1.current_ns with
    | none => exact ⟨get_thread_state_namespaces _ _ _, heap_le_refl _⟩
    | some vp =>
      simp only []
      cases hset : (intern_ns w s).2.heap.set_root vp (some (.ns (intern_ns w s).1)) with
      | none => exact ⟨get_thread_state_namespaces _ _ _, heap_le_refl _⟩
      | some h1 => exact ⟨get_thread_state_namespaces _ _ _, heap_le_set_root _ _ _ _ hset⟩
  | _ => left; rfl

theorem registry_ok_in_ns_fn (w : world) (tid : thread_id) (o : object) (h : registry_ok w) :
    registry_ok (in_ns_fn w tid o).2 := by
  rcases in_ns_fn_frame w tid o with hw | ⟨s, hns, hle⟩
  · rw [hw]; exact h
  · unfold registry_ok
    rw [hns]
    exact table_ok_mono _ _ _ hle (registry_ok_intern_ns w s h)

theorem intern_keyword_resolved_frame (w : world) (tid : thread_id) (ns name : String) :
    (intern_keyword w tid ns name true).2.ctx.namespaces = w.ctx.namespaces
    ∧ (intern_keyword w tid ns name true).2.heap.nss = w.heap.nss
    ∧ (intern_keyword w tid ns name true).2.heap.vars = w.heap.vars := by
  cases hf : map_find w.ctx.keywords ⟨ns, name⟩ with
  | some k => rw [intern_keyword_resolved_found w tid ns name k hf]; exact ⟨rfl, rfl, rfl⟩
  | none => rw [intern_keyword_resolved_fresh w tid ns name hf]; exact ⟨rfl, rfl, rfl⟩

/-- Keyword interning leaves the namespace table and the namespace and var boxes alone. -/
theorem intern_keyword_frame (w : world) (tid : thread_id) (ns name : String) (resolved : Bool) :
    (intern_keyword w tid ns name resolved).2.ctx.namespaces = w.ctx.namespaces
    ∧ (intern_keyword w tid ns name resolved).2.heap.nss = w.heap.nss
    ∧ (intern_keyword w tid ns name resolved).2.heap.vars = w.heap.vars := by
  cases resolved with
  | true => exact intern_keyword_resolved_frame w tid ns name
  | false =>
    by_cases hns : ns = ""
    · subst hns
      cases hts : map_find w.ctx.thread_states tid with
      | none =>
        simp [intern_keyword, get_thread_state, hts, map_emplace, current_ns_of]
      | some ts =>
        cases hc : current_ns_of w.heap ts with
        | error e => simp [intern_keyword, get_thread_state_found _ _ _ _ hts, hc]
        | ok r =>
          obtain ⟨p, cur⟩ := r
          have hunf : intern_keyword w tid "" name false
              = intern_keyword w tid cur.name.name name true := by
            simp [intern_keyword, get_thread_state_found _ _ _ _ hts, hc]
          rw [hunf]
          exact intern_keyword_resolved_frame w tid _ name
    · simp [intern_keyword, hns]

theorem registry_ok_intern_keyword (w : world) (tid : thread_id) (ns name : String)
    (resolved : Bool) (h : registry_ok w) :
    registry_ok (intern_keyword w tid ns name resolved).2 := by
  obtain ⟨h1, h2, h3⟩ := intern_keyword_frame w tid ns name resolved
  unfold registry_ok
  rw [h1]
  refine table_ok_mono w.heap _ _ ⟨fun p n hn => by rw [h2]; exact hn,
    fun vp v hv => ⟨v, by rw [h3]; exact hv, rfl, rfl⟩⟩ h

theorem table_keys_ok_mono (h h1 : heap) (tbl : List (symbol × ns_ptr)) (hle : heap_le h h1)
    (hok : table_keys_ok h tbl) : table_keys_ok h1 tbl := by
  intro K p hmem
  obtain ⟨n, hn, hname, hvars⟩ := hok K p hmem
  refine ⟨n, hle.1 p n hn, hname, fun k vp hk => ?_⟩
  obtain ⟨hsym, v, hv, hvname⟩ := hvars k vp hk
  obtain ⟨v1, hv1, hname1, _⟩ := hle.2 vp v hv
  exact ⟨hsym, v1, hv1, hname1.trans hvname⟩

theorem clone_vars_spec (co : clone_owner) (cloned old : ns_ptr)
    (vs : List (symbol × var_ptr)) :
    ∀ h : heap,
    (∀ k vp, (k, vp) ∈ vs → ∃ v, h.vars[vp]? = some v ∧ v.name = k ∧ v.n = old) →
    ∃ vs1 h1, clone_vars co cloned vs h = .ok (vs1, h1) ∧ heap_le h h1 ∧ h1.nss = h.nss
      ∧ ∀ k vp1, (k, vp1) ∈ vs1 →
          (∃ vp, (k, vp) ∈ vs)
          ∧ ∃ v1, h1.vars[vp1]? = some v1 ∧ v1.name = k ∧ v1.n = co cloned old := by
  induction vs with
  | nil =>
    intro h _
    exact ⟨[], h, rfl, heap_le_refl h, rfl, fun k vp1 hk => by cases hk⟩
  | cons e rest ih =>
    obtain ⟨k0, vp0⟩ := e
    intro h hvalid
    obtain ⟨v, hv, hvname, hvn⟩ := hvalid k0 vp0 (List.mem_cons_self _ _)
    have hle0 := heap_le_append_var h { v with n := co cloned v.n }
    obtain ⟨t, h2, hrec, hle2, hnss2, hent⟩ :=
      ih { h with vars := h.vars ++ [{ v with n := co cloned v.n }] } (fun k vp hk => by
        obtain ⟨v1, hv1, hn1, hown1⟩ := hvalid k vp (List.mem_cons_of_mem _ hk)
        obtain ⟨v2, hv2, hname2, hown2⟩ := hle0.2 vp v1 hv1
        exact ⟨v2, hv2, hname2.trans hn1, hown2.trans hown1⟩)
    refine ⟨(k0, h.vars.length) :: t, h2, ?_, heap_le_trans _ _ _ hle0 hle2, hnss2, ?_⟩
    · simp only [clone_vars, hv, hrec]
    · intro k vp1 hk
      have hk1 : (k, vp1) = (k0, h.vars.length) ∨ (k, vp1) ∈ t := List.mem_cons.mp hk
      rcases hk1 with he | hold
      · cases he
        refine ⟨⟨vp0, List.mem_cons_self _ _⟩, ?_⟩
        have hbox : ({ h with vars := h.vars ++ [{ v with n := co cloned v.n }] } : heap).vars[
            h.vars.length]? = some { v with n := co cloned v.n } :=
          List.getElem?_concat_length _ _
        obtain ⟨v1, hv1, hname1, hn1⟩ := hle2.2 _ _ hbox
        exact ⟨v1, hv1, hname1.trans hvname, by rw [hn1, hvn]⟩
      · obtain ⟨⟨vp, hvp⟩, hrest⟩ := hent k vp1 hold
        exact ⟨⟨vp, List.mem_cons_of_mem _ hvp⟩, hrest⟩

theorem ns_clone_spec (co : clone_owner) (h : heap) (p : ns_ptr) (n : ns)
    (hn : h.nss[p]? = some n)
    (hvalid : ∀ k vp, (k, vp) ∈ n.vars → ∃ v, h.vars[vp]? = some v ∧ v.name = k ∧ v.n = p) :
    ∃ p1 h1 n1, ns_clone co h p = .ok (p1, h1) ∧ heap_le h h1 ∧ h1.nss[p1]? = some n1
      ∧ n1.name = n.name
      ∧ ∀ k vp1, (k, vp1) ∈ n1.vars →
          (∃ vp, (k, vp) ∈ n.vars)
          ∧ ∃ v1, h1.vars[vp1]? = some v1 ∧ v1.name = k ∧ v1.n = co p1 p := by
  obtain ⟨vs1, h1, hcl, hle, hnss, hent⟩ := clone_vars_spec co h.nss.length p n.vars h hvalid
  refine ⟨h1.nss.length, { h1 with nss := h1.nss ++ [⟨n.name, vs1⟩] }, ⟨n.name, vs1⟩, ?_,
    heap_le_trans _ _ _ hle (heap_le_append_ns h1 _), List.getElem?_concat_length _ _, rfl, ?_⟩
  · simp only [ns_clone, hn, hcl]
  · intro k vp1 hk
    obtain ⟨hsrc, v1, hv1, hname1, hn1⟩ := hent k vp1 hk
    exact ⟨hsrc, v1, hv1, hname1, by rw [hn1, hnss]⟩

theorem clone_namespaces_spec (co : clone_owner) (rest : List (symbol × ns_ptr)) :
    ∀ (acc : List (symbol × ns_ptr)) (h : heap), table_ok h rest →
    (table_keys_ok h acc ∧ ((∀ a b, co a b = a) → table_ok h acc)) →
    ∃ acc1 h1, clone_namespaces co rest acc h = .ok (acc1, h1) ∧ heap_le h h1
      ∧ table_keys_ok h1 acc1 ∧ ((∀ a b, co a b = a) → table_ok h1 acc1) := by
  induction rest with
  | nil =>
    intro acc h _ hacc
    exact ⟨acc, h, rfl, heap_le_refl h, hacc.1, hacc.2⟩
  | cons e rest ih =>
    obtain ⟨k0, p0⟩ := e
    intro acc h hrest hacc
    obtain ⟨n, hn, hname, hvars⟩ := hrest k0 p0 (List.mem_cons_self _ _)
    obtain ⟨p1, h1, n1, hcl, hle, hn1, hname1, hent⟩ := ns_clone_spec co h p0 n hn
      (fun k vp hk => by
        obtain ⟨_, v, hv, hvn, hown⟩ := hvars k vp hk
        exact ⟨v, hv, hvn, hown⟩)
    have hacc1 : table_keys_ok h1 (map_emplace acc k0 p1).1
        ∧ ((∀ a b, co a b = a) → table_ok h1 (map_emplace acc k0 p1).1) := by
      cases hf : map_find acc k0 with
      | some p2 =>
        rw [map_emplace_of_some acc k0 p1 p2 hf]
        exact ⟨table_keys_ok_mono h h1 acc hle hacc.1,
          fun hco => table_ok_mono h h1 acc hle (hacc.2 hco)⟩
      | none =>
        rw [map_emplace_of_none acc k0 p1 hf]
        constructor
        · intro K p hmem
          have hm : (K, p) = (k0, p1) ∨ (K, p) ∈ acc := List.mem_cons.mp hmem
          rcases hm with he | hold
          · cases he
            refine ⟨n1, hn1, hname1.trans hname, fun k vp1 hk => ?_⟩
            obtain ⟨⟨vp, hsrc⟩, v1, hv1, hvname1, _⟩ := hent k vp1 hk
            exact ⟨by rw [hname1]; exact (hvars k vp hsrc).1, v1, hv1, hvname1⟩
          · exact table_keys_ok_mono h h1 acc hle hacc.1 K p hold
        · intro hco K p hmem
          have hm : (K, p) = (k0, p1) ∨ (K, p) ∈ acc := List.mem_cons.mp hmem
          rcases hm with he | hold
          · cases he
            refine ⟨n1, hn1, hname1.trans hname, fun k vp1 hk => ?_⟩
            obtain ⟨⟨vp, hsrc⟩, v1, hv1, hvname1, hown1⟩ := hent k vp1 hk
            exact ⟨by rw [hname1]; exact (hvars k vp hsrc).1, v1, hv1, hvname1,
              by rw [hown1, hco]⟩
          · exact table_ok_mono h h1 acc hle (hacc.2 hco) K p hold
    obtain ⟨acc2, h2, hrec, hle2, hkeys2, hok2⟩ := ih (map_emplace acc k0 p1).1 h1
      (table_ok_mono h h1 rest hle (fun K p hm => hrest K p (List.mem_cons_of_mem _ hm))) hacc1
    refine ⟨acc2, h2, ?_, heap_le_trans _ _ _ hle hle2, hkeys2, hok2⟩
    simp only [clone_namespaces, hcl, hrec]

/-- Cloning a registry that satisfies the invariant succeeds, whatever owner the clone of a
var records. The original still satisfies the invariant in the heap the two then share;
the clone satisfies it up to the owners of its vars, and in full when the clone of a var is
owned by the cloned namespace. -/
theorem registry_ok_context_copy (co : clone_owner) (w : world) (h : registry_ok w) :
    ∃ c, context_copy co w = .ok c
      ∧ registry_ok { heap := c.heap, ctx := w.ctx }
      ∧ table_keys_ok c.heap c.ctx.namespaces
      ∧ ((∀ a b, co a b = a) → registry_ok c) := by
  obtain ⟨acc1, h1, hcl, hle, hkeys, hok⟩ := clone_namespaces_spec co w.ctx.namespaces []
    w.heap h ⟨fun K p hm => (by cases hm), fun _ K p hm => (by cases hm)⟩
  refine ⟨{ heap := h1,
            ctx := { namespaces := acc1, keywords := w.ctx.keywords,
                     thread_states := w.ctx.thread_states } }, ?_, ?_, hkeys, hok⟩
  · simp only [context_copy, hcl]
  · exact table_ok_mono w.heap h1 _ hle h

theorem registry_ok_context_new (t : thread_id) : registry_ok (context_new ⟨[], [], []⟩ t).2 := by
  rw [context_new_eq]
  intro K p hmem
  have hm : (K, p) ∈ [((⟨"", "clojure.core"⟩ : symbol), (0 : ns_ptr))] := hmem
  simp only [List.mem_singleton, Prod.mk.injEq] at hm
  obtain ⟨rfl, rfl⟩ := hm
  refine ⟨⟨⟨"", "clojure.core"⟩,
      [(⟨"clojure.core", "fresh-seq"⟩, 4), (⟨"clojure.core", "seq"⟩, 3),
       (⟨"clojure.core", "assert"⟩, 2), (⟨"clojure.core", "in-ns"⟩, 1),
       (⟨"clojure.core", "*ns*"⟩, 0)]⟩, rfl, rfl, fun k vp hk => ?_⟩
  simp only [List.mem_cons, Prod.mk.injEq, List.mem_singleton, List.not_mem_nil, or_false] at hk
  rcases hk with ⟨rfl, rfl⟩ | ⟨rfl, rfl⟩ | ⟨rfl, rfl⟩ | ⟨rfl, rfl⟩ | ⟨rfl, rfl⟩ <;>
    exact ⟨rfl, _, rfl, rfl, rfl⟩

/-- C19 (amended). The registry invariant holds after construction and is kept by
`intern_ns`, `intern_var`, `in-ns` and `intern_keyword`. The invariant: for every namespace
in the namespace table and every entry (key symbol k -> var v) of its var table, k's
namespace text denotes the namespace's name symbol (so k's namespace component equals the
namespace's name whenever it is a bare name), v's qualified symbol equals k, and v's owning
namespace is that namespace. Cloning a registry that satisfies it succeeds and leaves the
original satisfying it; in the clone every entry satisfies the parts about k and about v's
qualified symbol, and v's owning namespace is the cloned namespace when the clone of a var
records the cloned namespace as its owner, and is not when it records the old owner. -/
theorem registry_invariant :
    (∀ t, registry_ok (context_new ⟨[], [], []⟩ t).2)
    ∧ (∀ w sym, registry_ok w → registry_ok (intern_ns w sym).2)
    ∧ (∀ w q, registry_ok w → registry_ok (intern_var w q).2)
    ∧ (∀ w tid o, registry_ok w → registry_ok (in_ns_fn w tid o).2)
    ∧ (∀ w tid ns name resolved, registry_ok w →
        registry_ok (intern_keyword w tid ns name resolved).2)
    ∧ (∀ co w, registry_ok w → ∃ c, context_copy co w = .ok c
        ∧ registry_ok { heap := c.heap, ctx := w.ctx }
        ∧ table_keys_ok c.heap c.ctx.namespaces
        ∧ ((∀ a b, co a b = a) → registry_ok c))
    ∧ ¬ registry_ok (fresh_clone owner_kept)
    ∧ (∀ w, registry_ok w → ∀ K p n k vp, (K, p) ∈ w.ctx.namespaces →
        w.heap.nss[p]? = some n → (k, vp) ∈ n.vars →
        (symbol_of_string k.ns = ⟨"", k.ns⟩ → k.ns = n.name.name)
        ∧ ∃ v, w.heap.vars[vp]? = some v ∧ v.name = k ∧ v.n = p) := by
  refine ⟨registry_ok_context_new, registry_ok_intern_ns, registry_ok_intern_var,
    registry_ok_in_ns_fn, registry_ok_intern_keyword, registry_ok_context_copy, ?_, ?_⟩
  · intro hok
    have hmem : ((⟨"", "clojure.core"⟩ : symbol), (1 : ns_ptr))
        ∈ (fresh_clone owner_kept).ctx.namespaces := List.mem_cons_self _ _
    obtain ⟨n, hn, _, hvars⟩ := hok _ _ hmem
    have hn1 : (fresh_clone owner_kept).heap.nss[1]?
        = some ⟨⟨"", "clojure.core"⟩,
            [(⟨"clojure.core", "fresh-seq"⟩, 5), (⟨"clojure.core", "seq"⟩, 6),
             (⟨"clojure.core", "assert"⟩, 7), (⟨"clojure.core", "in-ns"⟩, 8),
             (⟨"clojure.core", "*ns*"⟩, 9)]⟩ := rfl
    rw [hn1] at hn
    cases hn
    obtain ⟨_, v, hv, _, hown⟩ := hvars ⟨"clojure.core", "fresh-seq"⟩ 5 (List.mem_cons_self _ _)
    have hv5 : (fresh_clone owner_kept).heap.vars[5]?
        = some ⟨0, ⟨"clojure.core", "fresh-seq"⟩,
            some (.native_function_wrapper .fresh_seq), none⟩ := rfl
    rw [hv5] at hv
    cases hv
    cases hown
  · intro w hok K p n k vp hmem hn hk
    obtain ⟨n0, hn0, _, hvars⟩ := hok K p hmem
    rw [hn] at hn0
    cases hn0
    obtain ⟨hsym, hv⟩ := hvars k vp hk
    refine ⟨fun hbare => ?_, hv⟩
    rw [hbare] at hsym
    rw [← hsym]

/-- C19 as stated fails. In the reachable world left by construction, `intern_ns` of the
symbol a/b and `intern_var` of the symbol with namespace text "a/b" and name x, the namespace
registered under a/b (box 1, whose name is b) holds the key ("a/b", x): the key's namespace
component is not the namespace's name. Likewise after `intern_ns` of the unqualified symbol
x and `intern_var` of the symbol with namespace text "/x" and name y, the namespace x holds
the key ("/x", y). -/
theorem var_key_namespace_differs :
    (reachable 0 (intern_var world_ab ⟨"a/b", "x"⟩).2
      ∧ ((⟨"a", "b"⟩ : symbol), (1 : ns_ptr))
          ∈ (intern_var world_ab ⟨"a/b", "x"⟩).2.ctx.namespaces
      ∧ (intern_var world_ab ⟨"a/b", "x"⟩).2.heap.nss[1]?
          = some ⟨⟨"a", "b"⟩, [(⟨"a/b", "x"⟩, 5)]⟩
      ∧ (⟨"a/b", "x"⟩ : symbol).ns ≠ (⟨"a", "b"⟩ : symbol).name)
    ∧ (reachable 0 (intern_var (intern_ns fresh_world ⟨"", "x"⟩).2 ⟨"/x", "y"⟩).2
      ∧ ((⟨"", "x"⟩ : symbol), (1 : ns_ptr))
          ∈ (intern_var (intern_ns fresh_world ⟨"", "x"⟩).2 ⟨"/x", "y"⟩).2.ctx.namespaces
      ∧ (intern_var (intern_ns fresh_world ⟨"", "x"⟩).2 ⟨"/x", "y"⟩).2.heap.nss[1]?
          = some ⟨⟨"", "x"⟩, [(⟨"/x", "y"⟩, 5)]⟩
      ∧ (⟨"/x", "y"⟩ : symbol).ns ≠ (⟨"", "x"⟩ : symbol).name) :=
  ⟨⟨reachable.intern_var _ _ (reachable.intern_ns _ _ reachable.construct),
      List.mem_cons_self _ _, rfl, by decide⟩,
    ⟨reachable.intern_var _ _ (reachable.intern_ns _ _ reachable.construct),
      List.mem_cons_self _ _, rfl, by decide⟩⟩

/-! ## Var interning in a namespace that was never interned -/

theorem intern_ns_namespaces_ne (w : world) (sym K : symbol) (h : K ≠ sym) :
    map_find (intern_ns w sym).2.ctx.namespaces K = map_find w.ctx.namespaces K := by
  cases hf : map_find w.ctx.namespaces sym with
  | some p => rw [intern_ns_found w sym p hf]
  | none =>
    rw [intern_ns_fresh w sym hf]
    exact map_find_cons_ne _ _ _ _ (Ne.symm h)

theorem in_ns_fn_namespaces (w : world) (tid : thread_id) (s : symbol) :
    (in_ns_fn w tid (.symbol s)).2.ctx.namespaces = (intern_ns w s).2.ctx.namespaces := by
  simp only [in_ns_fn]
  cases hcur : (get_thread_state (intern_ns w s).2.ctx tid none).1.current_ns with
  | none => exact get_thread_state_namespaces _ _ _
  | some vp =>
    simp only []
    cases hset : (intern_ns w s).2.heap.set_root vp (some (.ns (intern_ns w s).1)) with
    | none => exact get_thread_state_namespaces _ _ _
    | some h1 => exact get_thread_state_namespaces _ _ _

/-- The namespace table of a reachable world holds exactly the symbols interned on the way. -/
theorem reachable_interned_keys (t : thread_id) (log : List symbol) (w : world)
    (hr : reachable_interned t log w) (K : symbol) :
    (∃ p, map_find w.ctx.namespaces K = some p) ↔ K ∈ log := by
  induction hr with
  | construct =>
    rw [context_new_eq, symbol_of_string_core]
    show (∃ p, map_find [((⟨"", "clojure.core"⟩ : symbol), (0 : ns_ptr))] K = some p) ↔ _
    by_cases hK : (⟨"", "clojure.core"⟩ : symbol) = K
    · subst hK
      simp [map_find]
    · have hK1 : K ≠ ⟨"", "clojure.core"⟩ := Ne.symm hK
      simp [map_find, hK, hK1]
  | intern_ns log w sym _ ih =>
    by_cases hK : K = sym
    · subst hK
      simp [intern_ns_registers]
    · rw [intern_ns_namespaces_ne w sym K hK, ih]
      simp [hK]
  | intern_var log w q _ ih =>
    rcases intern_var_world w q with hw | ⟨np, n, _, hw⟩
    · rw [hw]; exact ih
    · rw [hw]; exact ih
  | in_ns log w tid s _ _ ih =>
    rw [in_ns_fn_namespaces]
    by_cases hK : K = s
    · subst hK
      simp [intern_ns_registers]
    · rw [intern_ns_namespaces_ne w s K hK, ih]
      simp [hK]
  | in_ns_other log w tid o _ hno ih =>
    have hw : (in_ns_fn w tid o).2 = w := by
      cases o with
      | symbol s => exact absurd rfl (hno s)
      | _ => rfl
    rw [hw]
    exact ih

/-- Every world with a history of interned symbols is a reachable world. -/
theorem reachable_of_interned (t : thread_id) (log : List symbol) (w : world)
    (hr : reachable_interned t log w) : reachable t w := by
  induction hr with
  | construct => exact reachable.construct
  | intern_ns log w sym _ ih => exact reachable.intern_ns w sym ih
  | intern_var log w q _ ih => exact reachable.intern_var w q ih
  | in_ns log w tid s _ hok ih => exact reachable.in_ns w tid (.symbol s) ih hok
  | in_ns_other log w tid o _ hno ih =>
    refine reachable.in_ns w tid o ih ?_
    cases o with
    | symbol s => exact absurd rfl (hno s)
    | _ => rfl

/-- Every reachable world has a history of interned symbols. -/
theorem interned_of_reachable (t : thread_id) (w : world) (hr : reachable t w) :
    ∃ log, reachable_interned t log w := by
  induction hr with
  | construct => exact ⟨_, reachable_interned.construct⟩
  | intern_ns w sym _ ih =>
    obtain ⟨log, h⟩ := ih
    exact ⟨_, reachable_interned.intern_ns log w sym h⟩
  | intern_var w q _ ih =>
    obtain ⟨log, h⟩ := ih
    exact ⟨_, reachable_interned.intern_var log w q h⟩
  | in_ns w tid o _ hok ih =>
    obtain ⟨log, h⟩ := ih
    by_cases ho : ∃ s, o = .symbol s
    · obtain ⟨s, rfl⟩ := ho
      exact ⟨_, reachable_interned.in_ns log w tid s h hok⟩
    · exact ⟨_, reachable_interned.in_ns_other log w tid o h (fun s hs => ho ⟨s, hs⟩)⟩

/-- C7 (amended). For every registry state reached from construction through `intern_ns`,
`intern_var` and `in-ns`, and every qualified symbol whose namespace component is a bare
name (the one-string symbol constructor gives it no namespace) naming a namespace that was
never interned in that registry (no call interned the symbol of that name), `intern_var`
returns the "namespace doesn't exist" error as a value and leaves the whole world
untouched: no namespace and no var is created. -/
theorem intern_var_never_interned (t : thread_id) (log : List symbol) (w : world)
    (q : symbol) (hr : reachable_interned t log w) (hq : q.ns ≠ "")
    (hbare : symbol_of_string q.ns = ⟨"", q.ns⟩) (hnever : (⟨"", q.ns⟩ : symbol) ∉ log) :
    intern_var w q = (.ok (.error "can't intern var; namespace doesn't exist"), w) := by
  apply intern_var_missing_namespace w q hq
  rw [hbare]
  cases hf : map_find w.ctx.namespaces ⟨"", q.ns⟩ with
  | none => rfl
  | some p => exact absurd ((reachable_interned_keys t log w hr _).mp ⟨p, hf⟩) hnever

theorem intern_var_never_interned_witness :
    intern_var (intern_ns fresh_world ⟨"", "other"⟩).2 ⟨"user", "x"⟩
      = (.ok (.error "can't intern var; namespace doesn't exist"),
          (intern_ns fresh_world ⟨"", "other"⟩).2) :=
  intern_var_never_interned 0 [⟨"", "other"⟩, symbol_of_string "clojure.core"]
    (intern_ns fresh_world ⟨"", "other"⟩).2 ⟨"user", "x"⟩
    (reachable_interned.intern_ns _ _ _ reachable_interned.construct)
    (by decide) rfl (by decide)

/-- C7 as stated fails. In the registry reached by construction and `intern_ns` of the
unqualified symbol x, the symbols interned are clojure.core and x; no namespace /x was ever
interned. Yet `intern_var` of the symbol with namespace text "/x" and name y reads the text
as the symbol x, finds that namespace and creates var 5 in it. -/
theorem intern_var_slash_namespace_found :
    reachable_interned 0 [⟨"", "x"⟩, symbol_of_string "clojure.core"]
      (intern_ns fresh_world ⟨"", "x"⟩).2
    ∧ (∀ s ∈ [(⟨"", "x"⟩ : symbol), symbol_of_string "clojure.core"],
        s.name ≠ "/x" ∧ s.ns ≠ "/x")
    ∧ (intern_var (intern_ns fresh_world ⟨"", "x"⟩).2 ⟨"/x", "y"⟩).1 = .ok (.ok 5)
    ∧ (intern_ns fresh_world ⟨"", "x"⟩).2.heap.vars.length = 5
    ∧ (intern_var (intern_ns fresh_world ⟨"", "x"⟩).2 ⟨"/x", "y"⟩).2.heap.vars.length = 6 :=
  ⟨reachable_interned.intern_ns _ _ _ reachable_interned.construct, by decide, rfl, rfl, rfl⟩

end jank.runtime
